import Mathlib

/-!
Verification of the job-orchestration core of the tweets-post-video-renderer
repository against its natural-language specification.

The JavaScript modules are shallowly embedded:
* src/utils/job-manager.js        (JobManager: job lifecycle store)
* src/unnamed/part_003            (VideoGenerationWorker: poll loop, concurrency cap)
* src/utils/storage/local.js      (LocalStorageProvider: TTL storage, sanitization)
* src/utils/cleanup-scheduler.js  (CleanupScheduler: retention sweep)
* src/unnamed/part_007            (HMAC-SHA256 signature verifier middleware)

JavaScript objects are embedded as association lists of string keys to a
small dynamic value type; timestamps (ISO strings in the source) are embedded
as integer epoch milliseconds, which is faithful for every comparison the
source performs on them.
-/

namespace TweetsRenderer

/-- A JavaScript value, restricted to the shapes the embedded modules
manipulate: undefined, null, booleans, numbers, strings, and (nested)
plain objects. -/
inductive JVal where
  | undefined : JVal
  | null : JVal
  | boolean : Bool → JVal
  | num : Int → JVal
  | str : String → JVal
  | obj : List (String × JVal) → JVal

/-- A JavaScript object: ordered key/value pairs (JS objects preserve
insertion order for string keys). -/
abbrev Obj := List (String × JVal)

/-- JavaScript truthiness for the embedded value type (NaN does not arise
in the embedded code paths). -/
def truthy : JVal → Bool
  | .undefined => false
  | .null => false
  | .boolean b => b
  | .num n => n != 0
  | .str s => s != ""
  | .obj _ => true

/-- Property read: obj.k, yielding undefined for a missing key. -/
def jget (o : Obj) (k : String) : JVal :=
  match o.find? (fun p => p.1 == k) with
  | some p => p.2
  | none => .undefined

/-- Property write: obj.k = v.  An existing key keeps its position, a new
key is appended (JS object insertion-order semantics). -/
def oset (o : Obj) (k : String) (v : JVal) : Obj :=
  if o.any (fun p => p.1 == k) then
    o.map (fun p => if p.1 == k then (k, v) else p)
  else o ++ [(k, v)]

/-- Object.assign(target, patch): assign every patch key in order. -/
def oassign (o : Obj) (patch : Obj) : Obj :=
  patch.foldl (fun acc kv => oset acc kv.1 kv.2) o

/-- The JS expression x || null. -/
def orNull (v : JVal) : JVal := if truthy v then v else .null

/-- Property read on an arbitrary value: non-objects (numbers, strings,
null is never dereferenced in the embedded paths) have none of the keys the
embedded code asks for, so the read yields undefined. -/
def jsMember (v : JVal) (k : String) : JVal :=
  match v with
  | .obj fields => jget fields k
  | _ => .undefined

/-- The JS expression x || 0, landing in a numeric slot. -/
def jsOrZero (v : JVal) : Int :=
  if truthy v then
    match v with
    | .num n => n
    | _ => 0
  else 0

/-! ## JobManager (src/utils/job-manager.js)

A job record is an untyped JS object, exactly as in the source.  The store
is the insertion-ordered map jobId to record (a JS Map).  Each mutating
method receives the current clock as a parameter standing for the value of
new Date() at that point. -/

/-- The four status values accepted by updateJobStatus and
getJobsByStatus. -/
def validStatuses : List String := ["pending", "processing", "completed", "failed"]

/-- The normalized request object built by createJob (job-manager.js lines
34-40): exactly five keys, each caller value passed through the
requestData.field || null defaulting. -/
def mkRequest (rd : Obj) : Obj :=
  [ ("tweetBody", orNull (jget rd "tweetBody")),
    ("profilePhotoUrl", orNull (jget rd "profilePhotoUrl")),
    ("profileName", orNull (jget rd "profileName")),
    ("username", orNull (jget rd "username")),
    ("theme", orNull (jget rd "theme")) ]

/-- The job object literal of createJob (job-manager.js lines 28-45). -/
def mkJob (jid : String) (now : Int) (rd : Obj) : Obj :=
  [ ("jobId", .str jid),
    ("status", .str "pending"),
    ("createdAt", .num now),
    ("updatedAt", .num now),
    ("completedAt", .null),
    ("request", .obj (mkRequest rd)),
    ("result", .null),
    ("error", .null),
    ("currentStep", .null),
    ("progress", .num 0) ]

/-- The job store: jobId to record, in creation order. -/
abbrev JobStore := List (String × Obj)

/-- createJob: allocate the record with status pending (the uuid is a
parameter; the source draws it from uuidv4()). -/
def createJob (store : JobStore) (jid : String) (now : Int) (rd : Obj) : JobStore :=
  store ++ [(jid, mkJob jid now rd)]

/-- Store lookup shared by the mutating methods (this.jobs.get(jobId)). -/
def storeGet (store : JobStore) (jid : String) : Option Obj :=
  match store.find? (fun p => p.1 == jid) with
  | some p => some p.2
  | none => none

/-- Replace the record held under a job id. -/
def storePut (store : JobStore) (jid : String) (job : Obj) : JobStore :=
  store.map (fun p => if p.1 == jid then (jid, job) else p)

/-- The record-level effect of updateJobStatus (job-manager.js lines
96-106): set status and updatedAt, Object.assign the additional data, then
set completedAt only when the new status is terminal and completedAt is
still falsy.  Note the merge runs before the completedAt check, exactly as
in the source. -/
def applyUpdateStatus (now : Int) (job : Obj) (status : String) (patch : Obj) : Obj :=
  let j := oset job "status" (.str status)
  let j := oset j "updatedAt" (.num now)
  let j := oassign j patch
  if (status == "completed" || status == "failed") && !(truthy (jget j "completedAt")) then
    oset j "completedAt" (.num now)
  else j

/-- updateJobStatus at store level: validates the status value and the job
id, then applies the record-level update. -/
def updateJobStatus (now : Int) (store : JobStore) (jid : String) (status : String)
    (patch : Obj) : Except String JobStore :=
  if !(validStatuses.contains status) then
    .error "Invalid status"
  else
    match storeGet store jid with
    | none => .error "Job not found"
    | some job => .ok (storePut store jid (applyUpdateStatus now job status patch))

/-- The record-level effect of setJobCompleted (job-manager.js lines
163-178): unconditionally stamps completedAt with the current time,
normalizes the result object to its six keys, clears error. -/
def applySetCompleted (now : Int) (job : Obj) (rd : Obj) : Obj :=
  let j := oset job "status" (.str "completed")
  let j := oset j "updatedAt" (.num now)
  let j := oset j "completedAt" (.num now)
  let j := oset j "progress" (.num 100)
  let j := oset j "currentStep" (.str "Completed")
  let j := oset j "result" (.obj
    [ ("filename", orNull (jget rd "filename")),
      ("downloadUrl", orNull (jget rd "downloadUrl")),
      ("expiresAt", orNull (jget rd "expiresAt")),
      ("fileSize", orNull (jget rd "fileSize")),
      ("duration", orNull (jget rd "duration")),
      ("resolution", orNull (jget rd "resolution")) ])
  oset j "error" .null

/-- setJobCompleted at store level. -/
def setJobCompleted (now : Int) (store : JobStore) (jid : String) (rd : Obj) :
    Except String JobStore :=
  match storeGet store jid with
  | none => .error "Job not found"
  | some job => .ok (storePut store jid (applySetCompleted now job rd))

/-- The record-level effect of setJobFailed (job-manager.js lines 205-215):
unconditionally stamps completedAt, records the error object, clears
result. -/
def applySetFailed (now : Int) (job : Obj) (msg : String) (stack : JVal) : Obj :=
  let j := oset job "status" (.str "failed")
  let j := oset j "updatedAt" (.num now)
  let j := oset j "completedAt" (.num now)
  let j := oset j "error" (.obj
    [ ("message", .str msg), ("stack", stack), ("failedAt", .num now) ])
  oset j "result" .null

/-- setJobFailed at store level. -/
def setJobFailed (now : Int) (store : JobStore) (jid : String) (msg : String)
    (stack : JVal) : Except String JobStore :=
  match storeGet store jid with
  | none => .error "Job not found"
  | some job => .ok (storePut store jid (applySetFailed now job msg stack))

/-- cleanupExpiredJobs (job-manager.js lines 258-278): remove every record
whose createdAt is strictly older than now minus the retention window, and
return the surviving store together with the removal count. -/
def cleanupExpiredJobs (now : Int) (store : JobStore) (olderThanHours : Int) :
    Except String (JobStore × Nat) :=
  if olderThanHours ≤ 0 then .error "Invalid olderThanHours"
  else
    let cutoff := now - olderThanHours * 3600000
    let isOld : String × Obj → Bool := fun p =>
      match jget p.2 "createdAt" with
      | .num c => decide (c < cutoff)
      | _ => false
    .ok (store.filter (fun p => !(isOld p)), store.countP isOld)

/-- The status field of a stored job, as a string. -/
def statusOf (store : JobStore) (jid : String) : Option String :=
  match storeGet store jid with
  | some job =>
    match jget job "status" with
    | .str s => some s
    | _ => none
  | none => none

/-- The completedAt field of a stored job. -/
def completedAtOf (store : JobStore) (jid : String) : JVal :=
  match storeGet store jid with
  | some job => jget job "completedAt"
  | none => .undefined

/-- Unwrap an Except-valued store result (the embedded store operations
only fail on unknown ids or invalid arguments). -/
def getStore (e : Except String JobStore) : JobStore :=
  match e with
  | .ok s => s
  | .error _ => []

/-! ## Basic lemmas about the object operations -/

theorem jget_nil (k : String) : jget [] k = .undefined := rfl

theorem jget_cons (p : String × JVal) (t : Obj) (k : String) :
    jget (p :: t) k = if p.1 == k then p.2 else jget t k := by
  simp only [jget, List.find?]
  cases h : p.1 == k <;> simp [h, jget]

theorem jget_setmap_self (t : Obj) (k : String) (v : JVal)
    (h : t.any (fun p => p.1 == k) = true) :
    jget (t.map (fun p => if p.1 == k then (k, v) else p)) k = v := by
  induction t with
  | nil => simp at h
  | cons p t ih =>
    by_cases hp : p.1 = k
    · simp [jget_cons, hp]
    · have hp' : (p.1 == k) = false := by simpa using hp
      simp only [List.any_cons, hp', Bool.false_or] at h
      simp only [List.map_cons, hp', Bool.false_eq_true, if_false]
      rw [jget_cons]
      simp only [hp', Bool.false_eq_true, if_false]
      exact ih h

theorem jget_setmap_ne (t : Obj) (k k' : String) (v : JVal) (h : k' ≠ k) :
    jget (t.map (fun p => if p.1 == k then (k, v) else p)) k' = jget t k' := by
  induction t with
  | nil => rfl
  | cons p t ih =>
    by_cases hp : p.1 = k
    · have hp' : (p.1 == k) = true := by simpa using hp
      have hk : (k == k') = false := by simpa using (Ne.symm h)
      have hk2 : (p.1 == k') = false := by rw [hp]; simpa using (Ne.symm h)
      simp only [List.map_cons, hp', if_true, jget_cons, hk, hk2,
        Bool.false_eq_true, if_false]
      exact ih
    · have hp' : (p.1 == k) = false := by simpa using hp
      simp only [List.map_cons, hp', Bool.false_eq_true, if_false, jget_cons]
      cases hc : (p.1 == k') with
      | true => simp [hc]
      | false =>
        simp only [hc, Bool.false_eq_true, if_false]
        exact ih

theorem jget_append_single_self (t : Obj) (k : String) (v : JVal)
    (h : t.any (fun p => p.1 == k) = false) :
    jget (t ++ [(k, v)]) k = v := by
  induction t with
  | nil => simp [jget_cons]
  | cons p t ih =>
    simp only [List.any_cons, Bool.or_eq_false_iff] at h
    simp only [List.cons_append, jget_cons, h.1, Bool.false_eq_true, if_false]
    exact ih h.2

theorem jget_append_single_ne (t : Obj) (k k' : String) (v : JVal) (h : k' ≠ k) :
    jget (t ++ [(k, v)]) k' = jget t k' := by
  induction t with
  | nil =>
    have hk : (k == k') = false := by simpa using (Ne.symm h)
    simp [jget_cons, hk]
  | cons p t ih =>
    simp only [List.cons_append, jget_cons]
    cases hc : (p.1 == k') <;> simp [hc, ih]

theorem jget_oset_self (o : Obj) (k : String) (v : JVal) :
    jget (oset o k v) k = v := by
  unfold oset
  cases h : o.any (fun p => p.1 == k) with
  | true => simpa [h] using jget_setmap_self o k v h
  | false => simpa [h] using jget_append_single_self o k v h

theorem jget_oset_ne (o : Obj) (k k' : String) (v : JVal) (h : k' ≠ k) :
    jget (oset o k v) k' = jget o k' := by
  unfold oset
  cases hc : o.any (fun p => p.1 == k) with
  | true => simpa [hc] using jget_setmap_ne o k k' v h
  | false => simpa [hc] using jget_append_single_ne o k k' v h

theorem jget_oassign_notmem (patch : Obj) (o : Obj) (k : String)
    (h : k ∉ patch.map Prod.fst) :
    jget (oassign o patch) k = jget o k := by
  induction patch generalizing o with
  | nil => rfl
  | cons p t ih =>
    simp only [List.map_cons, List.mem_cons, not_or] at h
    show jget (oassign (oset o p.1 p.2) t) k = jget o k
    rw [ih _ h.2, jget_oset_ne _ _ _ _ h.1]

/-! ## Claim C10: createJob normalizes the request payload -/

/-- C10 (confirmed): for every request object accepted by createJob, the
stored record's request field holds exactly the five keys tweetBody,
profilePhotoUrl, profileName, username and theme, each equal to the
caller's value when that value is truthy and to null when it is absent or
falsy; every other caller-supplied field is discarded (the request field
is exactly the five-key object mkRequest rd). -/
theorem createJob_normalizes_request (jid : String) (now : Int) (rd : Obj) :
    storeGet (createJob [] jid now rd) jid = some (mkJob jid now rd)
    ∧ jget (mkJob jid now rd) "request" = .obj (mkRequest rd)
    ∧ (mkRequest rd).map Prod.fst
        = ["tweetBody", "profilePhotoUrl", "profileName", "username", "theme"]
    ∧ jget (mkRequest rd) "tweetBody"
        = (if truthy (jget rd "tweetBody") then jget rd "tweetBody" else .null)
    ∧ jget (mkRequest rd) "profilePhotoUrl"
        = (if truthy (jget rd "profilePhotoUrl") then jget rd "profilePhotoUrl" else .null)
    ∧ jget (mkRequest rd) "profileName"
        = (if truthy (jget rd "profileName") then jget rd "profileName" else .null)
    ∧ jget (mkRequest rd) "username"
        = (if truthy (jget rd "username") then jget rd "username" else .null)
    ∧ jget (mkRequest rd) "theme"
        = (if truthy (jget rd "theme") then jget rd "theme" else .null) := by
  refine ⟨?_, rfl, rfl, rfl, rfl, rfl, rfl, rfl⟩
  simp [storeGet, createJob]

/-! ## Claim C1: status transitions are not enforced to be monotonic -/

/-- The job store after creating job j1 at time 0 and completing it at
time 1. -/
def c1Store1 : JobStore :=
  getStore (setJobCompleted 1 (createJob [] "j1" 0 []) "j1" [])

/-- The same store after a subsequent updateJobStatus back to pending at
time 2. -/
def c1Store2 : JobStore :=
  getStore (updateJobStatus 2 c1Store1 "j1" "pending" [])

/-- C1 counterexample: a concrete sequence of JobStore operations moves a
job from the terminal status completed back to pending —
setJobCompleted(j1) followed by updateJobStatus(j1, pending) yields status
pending, refuting the claim that no operation ever changes a terminal
status. -/
theorem updateJobStatus_exits_terminal_cex :
    statusOf c1Store1 "j1" = some "completed"
    ∧ statusOf c1Store2 "j1" = some "pending" := ⟨rfl, rfl⟩

/-- The stored record of a job, defaulting to the empty object. -/
def getJobD (store : JobStore) (jid : String) : Obj :=
  (storeGet store jid).getD []

/-- C1 amended: the store does not enforce monotonic transitions.
setJobCompleted and setJobFailed always leave the job in their respective
terminal status, but updateJobStatus sets the status field to whichever of
the four valid values the caller passes, regardless of the current status
(so a transition from completed or failed back to pending or processing
exists whenever a caller requests it; as additionalData is merged with
Object.assign, this description assumes the patch does not itself assign
the status key). -/
theorem updateJobStatus_sets_any_valid_status (now : Int) (store : JobStore)
    (jid : String) (job : Obj) (status : String) (patch rd : Obj)
    (msg : String) (stack : JVal)
    (hget : storeGet store jid = some job)
    (hv : validStatuses.contains status = true)
    (hp : "status" ∉ patch.map Prod.fst) :
    updateJobStatus now store jid status patch
      = .ok (storePut store jid (applyUpdateStatus now job status patch))
    ∧ jget (applyUpdateStatus now job status patch) "status" = .str status
    ∧ jget (applySetCompleted now job rd) "status" = .str "completed"
    ∧ jget (applySetFailed now job msg stack) "status" = .str "failed" := by
  have hv' : status ∈ validStatuses := by simpa using hv
  refine ⟨?_, ?_, ?_, ?_⟩
  · simp [updateJobStatus, hv, hv', hget]
  · simp only [applyUpdateStatus]
    split
    · rw [jget_oset_ne _ _ _ _ (by decide),
        jget_oassign_notmem _ _ _ hp,
        jget_oset_ne _ _ _ _ (by decide),
        jget_oset_self]
    · rw [jget_oassign_notmem _ _ _ hp,
        jget_oset_ne _ _ _ _ (by decide),
        jget_oset_self]
  · simp only [applySetCompleted]
    rw [jget_oset_ne _ _ _ _ (by decide), jget_oset_ne _ _ _ _ (by decide),
      jget_oset_ne _ _ _ _ (by decide), jget_oset_ne _ _ _ _ (by decide),
      jget_oset_ne _ _ _ _ (by decide), jget_oset_ne _ _ _ _ (by decide),
      jget_oset_self]
  · simp only [applySetFailed]
    rw [jget_oset_ne _ _ _ _ (by decide), jget_oset_ne _ _ _ _ (by decide),
      jget_oset_ne _ _ _ _ (by decide), jget_oset_ne _ _ _ _ (by decide),
      jget_oset_self]

/-- C1 witness: the amended theorem applied to the concrete completed-job
store of the counterexample, requesting status pending. -/
theorem updateJobStatus_sets_any_valid_status_witness :
    jget (applyUpdateStatus 2 (getJobD c1Store1 "j1") "pending" []) "status"
      = .str "pending" :=
  (updateJobStatus_sets_any_valid_status 2 c1Store1 "j1" (getJobD c1Store1 "j1")
    "pending" [] [] "m" .null rfl rfl (by simp)).2.1

/-! ## Claim C4: completedAt is set once but can be overwritten -/

/-- Store after createJob at 0 and setJobCompleted at 1: completedAt is 1. -/
def c4Store1 : JobStore :=
  getStore (setJobCompleted 1 (createJob [] "j1" 0 []) "j1" [])

/-- The same store after setJobFailed at time 2. -/
def c4Store2 : JobStore :=
  getStore (setJobFailed 2 c4Store1 "j1" "boom" .null)

/-- C4 counterexample: setJobCompleted at time 1 sets completedAt to 1
(the first terminal transition), and a later setJobFailed at time 2
overwrites completedAt to 2 — refuting the claim that no later operation
ever overwrites the previously set completedAt. -/
theorem completedAt_overwritten_cex :
    completedAtOf c4Store1 "j1" = .num 1
    ∧ completedAtOf c4Store2 "j1" = .num 2 := ⟨rfl, rfl⟩

/-- C4 amended: updateJobStatus sets completedAt the first time status
becomes terminal and never overwrites a truthy completedAt (when its
additionalData patch does not itself assign completedAt); setJobCompleted
and setJobFailed, however, stamp completedAt with the current time
unconditionally, overwriting any previously set value. -/
theorem completedAt_set_once_by_updateJobStatus (now : Int) (job : Obj)
    (status : String) (patch rd : Obj) (msg : String) (stack : JVal)
    (hp : "completedAt" ∉ patch.map Prod.fst) :
    (truthy (jget job "completedAt") = true →
      jget (applyUpdateStatus now job status patch) "completedAt"
        = jget job "completedAt")
    ∧ (truthy (jget job "completedAt") = false →
        (status = "completed" ∨ status = "failed") →
      jget (applyUpdateStatus now job status patch) "completedAt" = .num now)
    ∧ jget (applySetCompleted now job rd) "completedAt" = .num now
    ∧ jget (applySetFailed now job msg stack) "completedAt" = .num now := by
  have hpre : jget (oassign (oset (oset job "status" (.str status))
      "updatedAt" (.num now)) patch) "completedAt" = jget job "completedAt" := by
    rw [jget_oassign_notmem _ _ _ hp, jget_oset_ne _ _ _ _ (by decide),
      jget_oset_ne _ _ _ _ (by decide)]
  refine ⟨?_, ?_, ?_, ?_⟩
  · intro ht
    simp only [applyUpdateStatus]
    split
    · rename_i hcond
      rw [hpre, ht] at hcond
      simp at hcond
    · exact hpre
  · intro ht hst
    simp only [applyUpdateStatus]
    split
    · exact jget_oset_self _ _ _
    · rename_i hcond
      rw [hpre, ht] at hcond
      rcases hst with h | h <;> simp [h] at hcond
  · simp only [applySetCompleted]
    rw [jget_oset_ne _ _ _ _ (by decide), jget_oset_ne _ _ _ _ (by decide),
      jget_oset_ne _ _ _ _ (by decide), jget_oset_ne _ _ _ _ (by decide),
      jget_oset_self]
  · simp only [applySetFailed]
    rw [jget_oset_ne _ _ _ _ (by decide), jget_oset_ne _ _ _ _ (by decide),
      jget_oset_self]

/-- C4 witness: the amended theorem at a concrete job whose completedAt is
already 5 (preserved by updateJobStatus) and at a fresh job reaching
completed for the first time (stamped with the current time). -/
theorem completedAt_set_once_by_updateJobStatus_witness :
    jget (applyUpdateStatus 9 [("completedAt", .num 5)] "failed" []) "completedAt"
      = .num 5
    ∧ jget (applyUpdateStatus 9 (mkJob "j1" 0 []) "completed" []) "completedAt"
      = .num 9 :=
  ⟨((completedAt_set_once_by_updateJobStatus 9 [("completedAt", .num 5)] "failed"
      [] [] "m" .null (by simp)).1 rfl).trans rfl,
   (completedAt_set_once_by_updateJobStatus 9 (mkJob "j1" 0 []) "completed"
      [] [] "m" .null (by simp)).2.1 rfl (Or.inl rfl)⟩

/-! ## Claim C3: accessors return shallow copies, not independent copies

The object-spread in getJob (job-manager.js line 72), getAllJobs (line 231)
and getJobsByStatus (line 250) copies one level of fields.  To talk about
reference sharing we embed a small heap: objects live in numbered cells and
a field can hold a reference to another cell, exactly the aliasing
structure of the JS objects involved. -/

/-- A heap value: null/undefined collapse is irrelevant here, so we keep
both, plus strings, numbers and references to heap cells. -/
inductive HVal where
  | hundefined : HVal
  | hnull : HVal
  | hstr : String → HVal
  | hnum : Int → HVal
  | href : Nat → HVal
deriving DecidableEq, Repr

/-- One level of a JS object: field names to heap values. -/
abbrev HObj := List (String × HVal)

/-- Field read on a heap object. -/
def hgetF (o : HObj) (k : String) : HVal :=
  match o.find? (fun p => p.1 == k) with
  | some p => p.2
  | none => .hundefined

/-- Field write on a heap object (in-place key update, append when new). -/
def hsetF (o : HObj) (k : String) (v : HVal) : HObj :=
  if o.any (fun p => p.1 == k) then
    o.map (fun p => if p.1 == k then (k, v) else p)
  else o ++ [(k, v)]

/-- Truthiness of heap values (object references are truthy). -/
def truthyH : HVal → Bool
  | .hundefined => false
  | .hnull => false
  | .hstr s => s != ""
  | .hnum n => n != 0
  | .href _ => true

/-- The JS expression x || null over heap values. -/
def orNullH (v : HVal) : HVal := if truthyH v then v else .hnull

/-- The heap: cell index to object. -/
structure Heap where
  cells : List HObj

/-- Allocate a fresh cell holding the given object. -/
def halloc (h : Heap) (o : HObj) : Heap × Nat :=
  (⟨h.cells ++ [o]⟩, h.cells.length)

/-- Dereference a cell. -/
def hobj (h : Heap) (r : Nat) : HObj := h.cells.getD r []

/-- obj.k = v through a reference: mutate the pointed-to cell. -/
def hwrite (h : Heap) (r : Nat) (k : String) (v : HVal) : Heap :=
  ⟨h.cells.set r (hsetF (hobj h r) k v)⟩

/-- createJob in the heap model: the normalized request is a fresh object,
and the job record holds a reference to it (job-manager.js lines 28-47).
Prim-valued request data suffices for the claims at issue. -/
def createJobHeap (h : Heap) (jid : String) (now : Int) (rd : HObj) : Heap × Nat :=
  let reqObj : HObj :=
    [ ("tweetBody", orNullH (hgetF rd "tweetBody")),
      ("profilePhotoUrl", orNullH (hgetF rd "profilePhotoUrl")),
      ("profileName", orNullH (hgetF rd "profileName")),
      ("username", orNullH (hgetF rd "username")),
      ("theme", orNullH (hgetF rd "theme")) ]
  let a1 := halloc h reqObj
  let jobObj : HObj :=
    [ ("jobId", .hstr jid), ("status", .hstr "pending"),
      ("createdAt", .hnum now), ("updatedAt", .hnum now),
      ("completedAt", .hnull), ("request", .href a1.2),
      ("result", .hnull), ("error", .hnull),
      ("currentStep", .hnull), ("progress", .hnum 0) ]
  let a2 := halloc a1.1 jobObj
  (a2.1, a2.2)

/-- getJob returns the spread copy of the record (job-manager.js line 72):
a fresh object carrying the same one level of field values. -/
def getJobCopy (h : Heap) (jref : Nat) : Heap × Nat :=
  halloc h (hobj h jref)

/-- Follow a reference-valued field (the caller expression job.request). -/
def fieldRef (h : Heap) (r : Nat) (k : String) : Nat :=
  match hgetF (hobj h r) k with
  | .href r2 => r2
  | _ => 0

/-- Heap after creating job j1 whose tweetBody is the string hello. -/
def c3H1 : Heap := (createJobHeap ⟨[]⟩ "j1" 0 [("tweetBody", .hstr "hello")]).1

/-- The canonical record's cell. -/
def c3JobRef : Nat := (createJobHeap ⟨[]⟩ "j1" 0 [("tweetBody", .hstr "hello")]).2

/-- Heap after a caller obtains the getJob copy. -/
def c3H2 : Heap := (getJobCopy c3H1 c3JobRef).1

/-- The copy cell handed to the caller. -/
def c3CopyRef : Nat := (getJobCopy c3H1 c3JobRef).2

/-- Heap after the caller mutates the copy's nested request object:
copy.request.tweetBody = new value. -/
def c3H3 : Heap :=
  hwrite c3H2 (fieldRef c3H2 c3CopyRef "request") "tweetBody" (.hstr "evil")

/-- C3 counterexample: after a caller writes through the nested request
field of the object returned by getJob, the store's canonical record reads
the mutated value — the spread copy does not protect nested fields, so the
accessors do not return independent copies. -/
theorem getJob_shallow_copy_cex :
    hgetF (hobj c3H2 (fieldRef c3H2 c3JobRef "request")) "tweetBody" = .hstr "hello"
    ∧ hgetF (hobj c3H3 (fieldRef c3H3 c3JobRef "request")) "tweetBody" = .hstr "evil"
    ∧ c3CopyRef ≠ c3JobRef := by
  refine ⟨rfl, rfl, by decide⟩

theorem getD_append_length (l : List HObj) (o : HObj) :
    (l ++ [o]).getD l.length [] = o := by
  induction l with
  | nil => rfl
  | cons a t ih => simp [ih]

theorem getD_append_lt (l : List HObj) (o : HObj) (i : Nat) (h : i < l.length) :
    (l ++ [o]).getD i [] = l.getD i [] := by
  induction l generalizing i with
  | nil => simp at h
  | cons a t ih =>
    cases i with
    | zero => rfl
    | succ n =>
      simp only [List.length_cons, Nat.succ_lt_succ_iff] at h
      simpa using ih n h

theorem getD_set_ne (l : List HObj) (i j : Nat) (o : HObj) (h : j ≠ i) :
    (l.set i o).getD j [] = l.getD j [] := by
  induction l generalizing i j with
  | nil => rfl
  | cons a t ih =>
    cases i with
    | zero =>
      cases j with
      | zero => exact absurd rfl h
      | succ m => rfl
    | succ n =>
      cases j with
      | zero => rfl
      | succ m => simpa using ih n m (by omega)

/-- C3 amended: getJob returns a shallow copy — a fresh object (distinct
cell) whose top-level fields are independent, so writes to the returned
object itself never alter the canonical record; but the copy carries the
very same field values, so its reference-valued fields (request, result,
error) point at the same nested objects as the canonical record, and
mutations through them corrupt the store (getAllJobs and getJobsByStatus
build their elements with the same one-level spread). -/
theorem getJob_copies_only_top_level (h : Heap) (jref : Nat) (k : String)
    (v : HVal) (hr : jref < h.cells.length) :
    (getJobCopy h jref).2 ≠ jref
    ∧ hobj (getJobCopy h jref).1 (getJobCopy h jref).2 = hobj h jref
    ∧ hobj (hwrite (getJobCopy h jref).1 (getJobCopy h jref).2 k v) jref
        = hobj h jref
    ∧ hgetF (hobj (getJobCopy h jref).1 (getJobCopy h jref).2) "request"
        = hgetF (hobj h jref) "request" := by
  have h1 : hobj (getJobCopy h jref).1 (getJobCopy h jref).2 = hobj h jref := by
    simp only [getJobCopy, halloc, hobj]
    exact getD_append_length h.cells (hobj h jref)
  refine ⟨by simpa [getJobCopy, halloc] using (Nat.ne_of_gt hr), h1, ?_, by rw [h1]⟩
  show (((h.cells ++ [hobj h jref]).set h.cells.length _).getD jref []) = hobj h jref
  rw [getD_set_ne _ _ _ _ (Nat.ne_of_lt hr), getD_append_lt _ _ _ hr]
  rfl

/-- C3 witness: the amended theorem at the concrete one-job heap of the
counterexample — the copy is a fresh cell, a top-level write to it leaves
the canonical record unchanged, and the nested request field is shared. -/
theorem getJob_copies_only_top_level_witness :
    (getJobCopy c3H1 c3JobRef).2 ≠ c3JobRef
    ∧ hobj (hwrite (getJobCopy c3H1 c3JobRef).1 (getJobCopy c3H1 c3JobRef).2
        "status" (.hstr "failed")) c3JobRef = hobj c3H1 c3JobRef
    ∧ hgetF (hobj (getJobCopy c3H1 c3JobRef).1 (getJobCopy c3H1 c3JobRef).2)
        "request" = hgetF (hobj c3H1 c3JobRef) "request" := by
  obtain ⟨a, _, c, d⟩ :=
    getJob_copies_only_top_level c3H1 c3JobRef "status" (.hstr "failed") (by decide)
  exact ⟨a, c, d⟩

/-! ## VideoGenerationWorker (src/unnamed/part_003): claims C2 and C5

The worker runs on a single-threaded event loop: code between two awaits
executes atomically, and the timer may start a new processQueue tick at any
suspension point.  We embed the system as a small-step transition relation
whose atomic steps are exactly the await-delimited blocks of the source:

* tick — one processQueue invocation up to its await Promise.allSettled
  (part_003 lines 152-188).  Everything there is synchronous: the capacity
  check, getJobsByStatus, slice(0, availableSlots), and for each selected
  job the processingJobs guard plus the synchronous prologue of processJob
  (currentJobCount++ and updateJobStatus processing, lines 200-223) before
  its first await.
* finishTask — the tail of a processing task: setJobCompleted (line 310) or
  setJobFailed (line 334) recording the terminal status.
* finishTaskNoRecord — the same tail when the failure is never recorded:
  setJobFailed throws on a falsy errorMessage (job-manager.js lines
  195-196) — e.g. a pipeline stage threw a value whose .message is empty
  or undefined — and the inner catch in processJob only logs it (part_003
  lines 333-338), so the job stays in status processing while the task
  still proceeds to its finally block.
* release — the finally block decrementing currentJobCount (line 346).
* unregister — the .finally callback removing the id from processingJobs
  (line 184), which runs after processJob settles.
* tickFinish — the await Promise.allSettled resuming (line 188), enabled
  only once every task launched by that tick has settled.
* create — the request layer adding a fresh pending job.

Intermediate suspension points of a task (render, compose, save) only touch
progress fields, which the claims do not mention, so they appear as
stuttering and are omitted. -/

/-- Job status as the worker observes it. -/
inductive JStatus where
  | pending : JStatus
  | processing : JStatus
  | completed : JStatus
  | failed : JStatus
deriving DecidableEq, Repr

/-- Terminal statuses. -/
def JStatus.isTerminal : JStatus → Bool
  | .completed => true
  | .failed => true
  | _ => false

/-- Record of one processQueue invocation: which tasks it launched, and
whether its await Promise.allSettled has resumed (the tick function has
returned). -/
structure TickRec where
  launched : List String
  finished : Bool
deriving DecidableEq, Repr

/-- The shared mutable state of the worker and the job store statuses. -/
structure WorkerState where
  jobs : List (String × JStatus)
  cnt : Nat
  running : List String
  done : List String
  procSet : List String
  ticks : List TickRec
deriving DecidableEq, Repr

/-- Ids of pending jobs in creation order (getJobsByStatus pending). -/
def pendingIds (jobs : List (String × JStatus)) : List String :=
  (jobs.filter (fun j => j.2 == JStatus.pending)).map Prod.fst

/-- Store update of one job's status. -/
def setStatus (jobs : List (String × JStatus)) (id : String) (st : JStatus) :
    List (String × JStatus) :=
  jobs.map (fun j => if j.1 = id then (id, st) else j)

/-- Store update of the statuses of all listed jobs. -/
def setStatusAll (jobs : List (String × JStatus)) (ids : List String)
    (st : JStatus) : List (String × JStatus) :=
  jobs.map (fun j => if j.1 ∈ ids then (j.1, st) else j)

/-- Status of a job id in the store. -/
def jobStatus (jobs : List (String × JStatus)) (id : String) : Option JStatus :=
  (jobs.find? (fun j => j.1 == id)).map Prod.snd

/-- One processQueue tick, atomically: the capacity early-return, the
fetch of pending jobs, the slice to availableSlots, and per selected job
the processingJobs guard, processingJobs.add, currentJobCount++ and the
status update to processing (part_003 lines 152-188 with the synchronous
prologue of processJob).  The ticks field records the launched tasks; for
a tick that launches nothing the await resolves immediately. -/
def tickAdmit (N : Nat) (s : WorkerState) : WorkerState :=
  if N ≤ s.cnt then
    { s with ticks := s.ticks ++ [⟨[], true⟩] }
  else if pendingIds s.jobs = [] then
    { s with ticks := s.ticks ++ [⟨[], true⟩] }
  else
    let sel := (pendingIds s.jobs).take (N - s.cnt)
    let adm := sel.filter (fun id => decide (id ∉ s.procSet))
    { jobs := setStatusAll s.jobs adm .processing,
      cnt := s.cnt + adm.length,
      running := s.running ++ adm,
      done := s.done,
      procSet := s.procSet ++ adm,
      ticks := s.ticks ++ [⟨adm, adm.isEmpty⟩] }

/-- A task is settled once its processJob promise and the attached
.finally have run: it is out of running, out of done, and removed from
processingJobs. -/
def taskSettled (s : WorkerState) (id : String) : Prop :=
  id ∉ s.running ∧ id ∉ s.done ∧ id ∉ s.procSet

/-- The interleaving semantics of the worker with concurrency limit N. -/
inductive WStep (N : Nat) : WorkerState → WorkerState → Prop where
  | create (s : WorkerState) (id : String) (h : id ∉ s.jobs.map Prod.fst) :
      WStep N s { s with jobs := s.jobs ++ [(id, .pending)] }
  | tick (s : WorkerState) : WStep N s (tickAdmit N s)
  | finishTask (s : WorkerState) (id : String) (ok : Bool) (h : id ∈ s.running) :
      WStep N s { s with
        running := s.running.erase id,
        done := s.done ++ [id],
        jobs := setStatus s.jobs id (if ok then .completed else .failed) }
  | finishTaskNoRecord (s : WorkerState) (id : String) (h : id ∈ s.running) :
      WStep N s { s with
        running := s.running.erase id,
        done := s.done ++ [id] }
  | release (s : WorkerState) (id : String) (h : id ∈ s.done) :
      WStep N s { s with done := s.done.erase id, cnt := s.cnt - 1 }
  | unregister (s : WorkerState) (id : String) (h : id ∈ s.procSet)
      (hr : id ∉ s.running) (hd : id ∉ s.done) :
      WStep N s { s with procSet := s.procSet.erase id }
  | tickFinish (s : WorkerState) (i : Nat) (hi : i < s.ticks.length)
      (hf : (s.ticks.get ⟨i, hi⟩).finished = false)
      (hall : ∀ id ∈ (s.ticks.get ⟨i, hi⟩).launched, taskSettled s id) :
      WStep N s { s with
        ticks := s.ticks.set i ⟨(s.ticks.get ⟨i, hi⟩).launched, true⟩ }

/-- The initial worker state: empty store, zero count, nothing in flight. -/
def WorkerState.init : WorkerState := ⟨[], 0, [], [], [], []⟩

/-- States reachable by any interleaving of the worker steps. -/
inductive WReach (N : Nat) : WorkerState → Prop where
  | init : WReach N WorkerState.init
  | step {s t : WorkerState} : WReach N s → WStep N s t → WReach N t

/-- Number of jobs whose status is processing. -/
def countProcessing (jobs : List (String × JStatus)) : Nat :=
  jobs.countP (fun j => j.2 == JStatus.processing)

theorem jobStatus_cons (j : String × JStatus) (t : List (String × JStatus))
    (id : String) :
    jobStatus (j :: t) id = if j.1 == id then some j.2 else jobStatus t id := by
  simp only [jobStatus, List.find?]
  cases h : j.1 == id <;> simp [h]

theorem jobStatus_append (l1 l2 : List (String × JStatus)) (id : String) :
    jobStatus (l1 ++ l2) id
      = match jobStatus l1 id with
        | some st => some st
        | none => jobStatus l2 id := by
  induction l1 with
  | nil => simp [jobStatus]
  | cons j t ih =>
    simp only [List.cons_append, jobStatus_cons]
    cases h : j.1 == id <;> simp [h, ih]

theorem keys_setStatus (jobs : List (String × JStatus)) (id : String)
    (st : JStatus) :
    (setStatus jobs id st).map Prod.fst = jobs.map Prod.fst := by
  induction jobs with
  | nil => rfl
  | cons j t ih =>
    show ((if j.1 = id then (id, st) else j) :: setStatus t id st).map Prod.fst
      = (j :: t).map Prod.fst
    simp only [List.map_cons, ih]
    by_cases h : j.1 = id <;> simp [h]

theorem keys_setStatusAll (jobs : List (String × JStatus)) (ids : List String)
    (st : JStatus) :
    (setStatusAll jobs ids st).map Prod.fst = jobs.map Prod.fst := by
  induction jobs with
  | nil => rfl
  | cons j t ih =>
    show ((if j.1 ∈ ids then (j.1, st) else j) :: setStatusAll t ids st).map Prod.fst
      = (j :: t).map Prod.fst
    simp only [List.map_cons, ih]
    by_cases h : j.1 ∈ ids <;> simp [h]

theorem jobStatus_setStatus_ne (jobs : List (String × JStatus))
    (id id2 : String) (st : JStatus) (h : id2 ≠ id) :
    jobStatus (setStatus jobs id st) id2 = jobStatus jobs id2 := by
  induction jobs with
  | nil => rfl
  | cons j t ih =>
    simp only [setStatus, List.map_cons] at *
    by_cases hj : j.1 = id
    · have h1 : (id == id2) = false := by simpa using fun e => h e.symm
      have h2 : (j.1 == id2) = false := by
        rw [hj]; simpa using fun e => h e.symm
      simp [hj, jobStatus_cons, h1, h2, ih]
    · simp only [hj, if_false, jobStatus_cons, ih]

theorem jobStatus_setStatus_mem (jobs : List (String × JStatus)) (id : String)
    (st : JStatus) (h : id ∈ jobs.map Prod.fst) :
    jobStatus (setStatus jobs id st) id = some st := by
  induction jobs with
  | nil => simp at h
  | cons j t ih =>
    simp only [setStatus, List.map_cons] at *
    by_cases hj : j.1 = id
    · simp [hj, jobStatus_cons]
    · have hne : (j.1 == id) = false := by simpa using hj
      rcases List.mem_cons.1 h with h | h
      · exact absurd h.symm hj
      · simp only [hj, if_false, jobStatus_cons, hne, Bool.false_eq_true,
          if_false]
        exact ih h

theorem jobStatus_setStatusAll_not (jobs : List (String × JStatus))
    (ids : List String) (st : JStatus) (id : String) (h : id ∉ ids) :
    jobStatus (setStatusAll jobs ids st) id = jobStatus jobs id := by
  induction jobs with
  | nil => rfl
  | cons j t ih =>
    simp only [setStatusAll, List.map_cons] at *
    by_cases hj : j.1 ∈ ids
    · have hne : (j.1 == id) = false := by
        have : j.1 ≠ id := fun e => h (e ▸ hj)
        simpa using this
      simp [hj, jobStatus_cons, hne, ih]
    · simp only [hj, if_false, jobStatus_cons, ih]

theorem jobStatus_setStatusAll_mem (jobs : List (String × JStatus))
    (ids : List String) (st : JStatus) (id : String) (h : id ∈ ids)
    (hk : id ∈ jobs.map Prod.fst) :
    jobStatus (setStatusAll jobs ids st) id = some st := by
  induction jobs with
  | nil => simp at hk
  | cons j t ih =>
    simp only [setStatusAll, List.map_cons] at *
    by_cases hj : j.1 = id
    · simp [hj, h, jobStatus_cons]
    · have hne : (j.1 == id) = false := by simpa using hj
      rcases List.mem_cons.1 hk with hk | hk
      · exact absurd hk.symm hj
      · show jobStatus ((if j.1 ∈ ids then (j.1, st) else j) :: setStatusAll t ids st) id = some st
        by_cases hc : j.1 ∈ ids
        · rw [if_pos hc, jobStatus_cons]
          simp only [hne, Bool.false_eq_true, if_false]
          exact ih hk
        · rw [if_neg hc, jobStatus_cons]
          simp only [hne, Bool.false_eq_true, if_false]
          exact ih hk

theorem jobStatus_eq_of_mem (jobs : List (String × JStatus))
    (hnd : (jobs.map Prod.fst).Nodup) (id : String) (st : JStatus)
    (h : (id, st) ∈ jobs) :
    jobStatus jobs id = some st := by
  induction jobs with
  | nil => simp at h
  | cons j t ih =>
    simp only [List.map_cons, List.nodup_cons] at hnd
    rcases List.mem_cons.1 h with h | h
    · simp [← h, jobStatus_cons]
    · have hkey : id ∈ t.map Prod.fst := List.mem_map.2 ⟨(id, st), h, rfl⟩
      have hne : (j.1 == id) = false := by
        have : j.1 ≠ id := fun e => hnd.1 (e ▸ hkey)
        simpa using this
      simp [jobStatus_cons, hne, ih hnd.2 h]

theorem jobStatus_isSome_of_mem (jobs : List (String × JStatus)) (id : String)
    (h : id ∈ jobs.map Prod.fst) : (jobStatus jobs id).isSome = true := by
  induction jobs with
  | nil => simp at h
  | cons j t ih =>
    simp only [List.map_cons] at h
    rcases List.mem_cons.1 h with h | h
    · simp [jobStatus_cons, h]
    · cases hj : j.1 == id <;> simp [jobStatus_cons, hj, ih h]

theorem mem_keys_of_jobStatus (jobs : List (String × JStatus)) (id : String)
    (st : JStatus) (h : jobStatus jobs id = some st) : id ∈ jobs.map Prod.fst := by
  induction jobs with
  | nil => simp [jobStatus] at h
  | cons j t ih =>
    rw [jobStatus_cons] at h
    simp only [List.map_cons, List.mem_cons]
    by_cases hj : (j.1 == id) = true
    · exact Or.inl (eq_of_beq hj).symm
    · rw [if_neg hj] at h
      exact Or.inr (ih h)

theorem pendingIds_subset_keys (jobs : List (String × JStatus)) :
    pendingIds jobs ⊆ jobs.map Prod.fst := by
  intro id hid
  obtain ⟨p, hp, rfl⟩ := List.mem_map.1 hid
  exact List.mem_map.2 ⟨p, (List.mem_filter.1 hp).1, rfl⟩

theorem pendingIds_nodup (jobs : List (String × JStatus))
    (hnd : (jobs.map Prod.fst).Nodup) : (pendingIds jobs).Nodup :=
  hnd.sublist ((jobs.filter_sublist).map Prod.fst)

theorem mem_pendingIds_status (jobs : List (String × JStatus))
    (hnd : (jobs.map Prod.fst).Nodup) (id : String) (h : id ∈ pendingIds jobs) :
    jobStatus jobs id = some .pending := by
  obtain ⟨p, hp, rfl⟩ := List.mem_map.1 h
  have hf := List.mem_filter.1 hp
  have hpend : p.2 = JStatus.pending := by simpa using hf.2
  have : (p.1, p.2) ∈ jobs := by simpa using hf.1
  rw [← hpend]
  exact jobStatus_eq_of_mem jobs hnd p.1 p.2 this

/-- The inductive invariant of the worker system.  currentJobCount counts
exactly the tasks that have incremented it and not yet decremented it
(running or done); every running task belongs to a processing job;
everything in flight is guarded by processingJobs; and a finished tick
only records settled tasks.  Nothing here forces every processing job to
have a live task: the finishTaskNoRecord step leaves a job in status
processing with its task gone — such stuck jobs are what stuckCount below
measures. -/
structure WInv (N : Nat) (s : WorkerState) : Prop where
  cntEq : s.cnt = s.running.length + s.done.length
  cntLe : s.cnt ≤ N
  flightNodup : (s.running ++ s.done).Nodup
  jobsNodup : (s.jobs.map Prod.fst).Nodup
  runStat : ∀ id ∈ s.running, jobStatus s.jobs id = some .processing
  doneStat : ∀ id ∈ s.done, ∃ st, jobStatus s.jobs id = some st ∧ st ≠ .pending
  flightProc : ∀ id, id ∈ s.running ∨ id ∈ s.done → id ∈ s.procSet
  launchedState : ∀ t ∈ s.ticks, ∀ id ∈ t.launched,
      id ∈ s.running ∨ id ∈ s.done ∨
        ∃ st, jobStatus s.jobs id = some st ∧ st ≠ .pending
  finishedSettled : ∀ t ∈ s.ticks, t.finished = true → ∀ id ∈ t.launched,
      taskSettled s id

theorem winv_init (N : Nat) : WInv N WorkerState.init := by
  refine ⟨rfl, Nat.zero_le N, List.nodup_nil, List.nodup_nil, ?_, ?_, ?_, ?_, ?_⟩
  all_goals intro id h
  all_goals simp [WorkerState.init, jobStatus] at h ⊢

theorem winv_tickpad (N : Nat) (s : WorkerState) (inv : WInv N s) (b : Bool) :
    WInv N { s with ticks := s.ticks ++ [⟨[], b⟩] } := by
  refine ⟨inv.cntEq, inv.cntLe, inv.flightNodup, inv.jobsNodup, inv.runStat,
    inv.doneStat, inv.flightProc, ?_, ?_⟩
  · intro t ht
    rcases List.mem_append.1 ht with ht | ht
    · exact inv.launchedState t ht
    · intro id hid
      simp only [List.mem_singleton] at ht
      subst ht
      simp at hid
  · intro t ht hf
    rcases List.mem_append.1 ht with ht | ht
    · exact inv.finishedSettled t ht hf
    · intro id hid
      simp only [List.mem_singleton] at ht
      subst ht
      simp at hid

theorem winv_create (N : Nat) (s : WorkerState) (inv : WInv N s) (id0 : String)
    (h : id0 ∉ s.jobs.map Prod.fst) :
    WInv N { s with jobs := s.jobs ++ [(id0, .pending)] } := by
  have happ : ∀ id st, jobStatus s.jobs id = some st →
      jobStatus (s.jobs ++ [(id0, JStatus.pending)]) id = some st := by
    intro id st hst
    rw [jobStatus_append, hst]
  refine ⟨inv.cntEq, inv.cntLe, inv.flightNodup, ?_, ?_, ?_, inv.flightProc,
    ?_, ?_⟩
  · simp only [List.map_append, List.map_cons, List.map_nil]
    rw [List.nodup_append]
    refine ⟨inv.jobsNodup, List.nodup_singleton id0, ?_⟩
    intro x hx hx2
    simp only [List.mem_singleton] at hx2
    exact h (hx2 ▸ hx)
  · intro id hid
    exact happ id _ (inv.runStat id hid)
  · intro id hid
    obtain ⟨st, hst, hne⟩ := inv.doneStat id hid
    exact ⟨st, happ id st hst, hne⟩
  · intro t ht id hid
    rcases inv.launchedState t ht id hid with hc | hc | ⟨st, hst, hne⟩
    · exact Or.inl hc
    · exact Or.inr (Or.inl hc)
    · exact Or.inr (Or.inr ⟨st, happ id st hst, hne⟩)
  · intro t ht hf id hid
    exact inv.finishedSettled t ht hf id hid

theorem winv_tick (N : Nat) (s : WorkerState) (inv : WInv N s) :
    WInv N (tickAdmit N s) := by
  unfold tickAdmit
  by_cases h1 : N ≤ s.cnt
  · rw [if_pos h1]
    exact winv_tickpad N s inv true
  rw [if_neg h1]
  by_cases h2 : pendingIds s.jobs = []
  · rw [if_pos h2]
    exact winv_tickpad N s inv true
  rw [if_neg h2]
  simp only []
  set sel := (pendingIds s.jobs).take (N - s.cnt) with hsel
  set adm := sel.filter (fun id => decide (id ∉ s.procSet)) with hadm
  have run_nd : s.running.Nodup := (List.nodup_append.1 inv.flightNodup).1
  have done_nd : s.done.Nodup := (List.nodup_append.1 inv.flightNodup).2.1
  have disj_rd : s.running.Disjoint s.done := (List.nodup_append.1 inv.flightNodup).2.2
  have hadm_sl : List.Sublist adm (pendingIds s.jobs) :=
    (List.filter_sublist sel).trans (List.take_sublist _ _)
  have hadm_sub : adm ⊆ pendingIds s.jobs := hadm_sl.subset
  have hadm_nodup : adm.Nodup := (pendingIds_nodup s.jobs inv.jobsNodup).sublist hadm_sl
  have hadm_not_proc : ∀ id ∈ adm, id ∉ s.procSet := by
    intro id hid
    have := (List.mem_filter.1 hid).2
    simpa using this
  have hadm_pending : ∀ id ∈ adm, jobStatus s.jobs id = some .pending := by
    intro id hid
    exact mem_pendingIds_status s.jobs inv.jobsNodup id (hadm_sub hid)
  have hadm_keys : ∀ id ∈ adm, id ∈ s.jobs.map Prod.fst := by
    intro id hid
    exact pendingIds_subset_keys s.jobs (hadm_sub hid)
  have hadm_len : adm.length ≤ N - s.cnt := by
    calc adm.length ≤ sel.length := List.length_filter_le _ _
    _ ≤ N - s.cnt := by rw [hsel]; exact List.length_take_le _ _
  have hadm_nrun : ∀ id ∈ adm, id ∉ s.running := by
    intro id hid hrun
    exact hadm_not_proc id hid (inv.flightProc id (Or.inl hrun))
  have hadm_ndone : ∀ id ∈ adm, id ∉ s.done := by
    intro id hid hdone
    exact hadm_not_proc id hid (inv.flightProc id (Or.inr hdone))
  have hadm_stat : ∀ id ∈ adm, ∀ st, jobStatus s.jobs id = some st →
      st = JStatus.pending := by
    intro id hid st hst
    rw [hadm_pending id hid] at hst
    exact (Option.some.inj hst).symm
  refine ⟨?_, ?_, ?_, ?_, ?_, ?_, ?_, ?_, ?_⟩
  · show s.cnt + adm.length = (s.running ++ adm).length + s.done.length
    rw [List.length_append]
    have := inv.cntEq
    omega
  · show s.cnt + adm.length ≤ N
    omega
  · show ((s.running ++ adm) ++ s.done).Nodup
    rw [List.nodup_append, List.nodup_append]
    refine ⟨⟨run_nd, hadm_nodup, ?_⟩, done_nd, ?_⟩
    · intro x hx hx2
      exact hadm_nrun x hx2 hx
    · intro x hx
      rcases List.mem_append.1 hx with hx | hx
      · exact disj_rd hx
      · exact hadm_ndone x hx
  · show ((setStatusAll s.jobs adm .processing).map Prod.fst).Nodup
    rw [keys_setStatusAll]
    exact inv.jobsNodup
  · intro id hid
    rcases List.mem_append.1 hid with hid | hid
    · have : id ∉ adm := fun ha => hadm_nrun id ha hid
      rw [jobStatus_setStatusAll_not _ _ _ _ this]
      exact inv.runStat id hid
    · exact jobStatus_setStatusAll_mem _ _ _ _ hid (hadm_keys id hid)
  · intro id hid
    have hni : id ∉ adm := fun ha => hadm_ndone id ha hid
    rw [jobStatus_setStatusAll_not _ _ _ _ hni]
    exact inv.doneStat id hid
  · intro id hid
    rcases hid with hid | hid
    · rcases List.mem_append.1 hid with hid | hid
      · exact List.mem_append.2 (Or.inl (inv.flightProc id (Or.inl hid)))
      · exact List.mem_append.2 (Or.inr hid)
    · exact List.mem_append.2 (Or.inl (inv.flightProc id (Or.inr hid)))
  · intro t ht id hid
    rcases List.mem_append.1 ht with ht | ht
    · rcases inv.launchedState t ht id hid with hc | hc | ⟨st, hst, hne⟩
      · exact Or.inl (List.mem_append.2 (Or.inl hc))
      · exact Or.inr (Or.inl hc)
      · have hna : id ∉ adm := fun ha => hne (hadm_stat id ha st hst)
        exact Or.inr (Or.inr ⟨st,
          (jobStatus_setStatusAll_not _ _ _ _ hna).trans hst, hne⟩)
    · simp only [List.mem_singleton] at ht
      subst ht
      exact Or.inl (List.mem_append.2 (Or.inr hid))
  · intro t ht hf id hid
    rcases List.mem_append.1 ht with ht | ht
    · obtain ⟨hr, hd, hp⟩ := inv.finishedSettled t ht hf id hid
      have hterm : ∃ st, jobStatus s.jobs id = some st ∧ st ≠ JStatus.pending := by
        rcases inv.launchedState t ht id hid with hc | hc | hc
        · exact absurd hc hr
        · exact absurd hc hd
        · exact hc
      have hna : id ∉ adm := by
        intro ha
        obtain ⟨st, hst, hne⟩ := hterm
        exact hne (hadm_stat id ha st hst)
      refine ⟨?_, hd, ?_⟩
      · intro hx
        rcases List.mem_append.1 hx with hx | hx
        · exact hr hx
        · exact hna hx
      · intro hx
        rcases List.mem_append.1 hx with hx | hx
        · exact hp hx
        · exact hna hx
    · simp only [List.mem_singleton] at ht
      subst ht
      simp only at hf hid
      rw [List.isEmpty_iff] at hf
      rw [hf] at hid
      simp at hid

theorem winv_finish (N : Nat) (s : WorkerState) (inv : WInv N s) (id0 : String)
    (ok : Bool) (h : id0 ∈ s.running) :
    WInv N { s with
      running := s.running.erase id0,
      done := s.done ++ [id0],
      jobs := setStatus s.jobs id0 (if ok then .completed else .failed) } := by
  set term : JStatus := if ok then .completed else .failed with hterm_def
  have hterm : term ≠ JStatus.pending := by
    cases ok <;> simp [hterm_def]
  have run_nd : s.running.Nodup := (List.nodup_append.1 inv.flightNodup).1
  have disj_rd : s.running.Disjoint s.done := (List.nodup_append.1 inv.flightNodup).2.2
  have hid0_nd : id0 ∉ s.done := disj_rd h
  have hid0_keys : id0 ∈ s.jobs.map Prod.fst :=
    mem_keys_of_jobStatus _ _ _ (inv.runStat id0 h)
  have hperm : (((s.running.erase id0) ++ (s.done ++ [id0]))).Perm
      (s.running ++ s.done) := by
    have p1 : (s.done ++ [id0]).Perm (id0 :: s.done) := List.perm_append_singleton _ _
    have p3 : s.running.Perm (id0 :: s.running.erase id0) := List.perm_cons_erase h
    have p2 := p1.append_left (s.running.erase id0)
    exact (p2.trans List.perm_middle).trans (p3.append_right s.done).symm
  refine ⟨?_, inv.cntLe, ?_, ?_, ?_, ?_, ?_, ?_, ?_⟩
  · show s.cnt = (s.running.erase id0).length + (s.done ++ [id0]).length
    rw [List.length_append, List.length_erase_of_mem h]
    have hpos : 0 < s.running.length := List.length_pos_of_mem h
    have := inv.cntEq
    simp only [List.length_cons, List.length_nil]
    omega
  · exact hperm.nodup_iff.2 inv.flightNodup
  · show ((setStatus s.jobs id0 term).map Prod.fst).Nodup
    rw [keys_setStatus]
    exact inv.jobsNodup
  · intro id hid
    obtain ⟨hne, hmem⟩ := (run_nd.mem_erase_iff).1 hid
    rw [jobStatus_setStatus_ne _ _ _ _ hne]
    exact inv.runStat id hmem
  · intro id hid
    rcases List.mem_append.1 hid with hid | hid
    · have hne : id ≠ id0 := fun e => hid0_nd (e ▸ hid)
      obtain ⟨st, hst, ht⟩ := inv.doneStat id hid
      exact ⟨st, (jobStatus_setStatus_ne _ _ _ _ hne).trans hst, ht⟩
    · simp only [List.mem_singleton] at hid
      subst hid
      exact ⟨term, jobStatus_setStatus_mem _ _ _ hid0_keys, hterm⟩
  · intro id hid
    rcases hid with hid | hid
    · exact inv.flightProc id (Or.inl (List.mem_of_mem_erase hid))
    · rcases List.mem_append.1 hid with hid | hid
      · exact inv.flightProc id (Or.inr hid)
      · simp only [List.mem_singleton] at hid
        subst hid
        exact inv.flightProc id (Or.inl h)
  · intro t ht id hid
    rcases inv.launchedState t ht id hid with hc | hc | ⟨st, hst, ht2⟩
    · by_cases he : id = id0
      · subst he
        exact Or.inr (Or.inl (List.mem_append.2 (Or.inr (by simp))))
      · exact Or.inl ((run_nd.mem_erase_iff).2 ⟨he, hc⟩)
    · exact Or.inr (Or.inl (List.mem_append.2 (Or.inl hc)))
    · by_cases he : id = id0
      · subst he
        exact Or.inr (Or.inl (List.mem_append.2 (Or.inr (by simp))))
      · exact Or.inr (Or.inr ⟨st, (jobStatus_setStatus_ne _ _ _ _ he).trans hst, ht2⟩)
  · intro t ht hf id hid
    obtain ⟨hr, hd, hp⟩ := inv.finishedSettled t ht hf id hid
    refine ⟨fun hx => hr (List.mem_of_mem_erase hx), ?_, hp⟩
    intro hx
    rcases List.mem_append.1 hx with hx | hx
    · exact hd hx
    · simp only [List.mem_singleton] at hx
      subst hx
      exact hr h

theorem winv_norec (N : Nat) (s : WorkerState) (inv : WInv N s) (id0 : String)
    (h : id0 ∈ s.running) :
    WInv N { s with
      running := s.running.erase id0,
      done := s.done ++ [id0] } := by
  have run_nd : s.running.Nodup := (List.nodup_append.1 inv.flightNodup).1
  have disj_rd : s.running.Disjoint s.done := (List.nodup_append.1 inv.flightNodup).2.2
  have hid0_nd : id0 ∉ s.done := disj_rd h
  have hperm : (((s.running.erase id0) ++ (s.done ++ [id0]))).Perm
      (s.running ++ s.done) := by
    have p1 : (s.done ++ [id0]).Perm (id0 :: s.done) := List.perm_append_singleton _ _
    have p3 : s.running.Perm (id0 :: s.running.erase id0) := List.perm_cons_erase h
    have p2 := p1.append_left (s.running.erase id0)
    exact (p2.trans List.perm_middle).trans (p3.append_right s.done).symm
  refine ⟨?_, inv.cntLe, ?_, inv.jobsNodup, ?_, ?_, ?_, ?_, ?_⟩
  · show s.cnt = (s.running.erase id0).length + (s.done ++ [id0]).length
    rw [List.length_append, List.length_erase_of_mem h]
    have hpos : 0 < s.running.length := List.length_pos_of_mem h
    have := inv.cntEq
    simp only [List.length_cons, List.length_nil]
    omega
  · exact hperm.nodup_iff.2 inv.flightNodup
  · intro id hid
    exact inv.runStat id (List.mem_of_mem_erase hid)
  · intro id hid
    rcases List.mem_append.1 hid with hid | hid
    · exact inv.doneStat id hid
    · simp only [List.mem_singleton] at hid
      subst hid
      exact ⟨JStatus.processing, inv.runStat id h, by decide⟩
  · intro id hid
    rcases hid with hid | hid
    · exact inv.flightProc id (Or.inl (List.mem_of_mem_erase hid))
    · rcases List.mem_append.1 hid with hid | hid
      · exact inv.flightProc id (Or.inr hid)
      · simp only [List.mem_singleton] at hid
        subst hid
        exact inv.flightProc id (Or.inl h)
  · intro t ht id hid
    rcases inv.launchedState t ht id hid with hc | hc | hc
    · by_cases he : id = id0
      · subst he
        exact Or.inr (Or.inl (List.mem_append.2 (Or.inr (by simp))))
      · exact Or.inl ((run_nd.mem_erase_iff).2 ⟨he, hc⟩)
    · exact Or.inr (Or.inl (List.mem_append.2 (Or.inl hc)))
    · exact Or.inr (Or.inr hc)
  · intro t ht hf id hid
    obtain ⟨hr, hd, hp⟩ := inv.finishedSettled t ht hf id hid
    refine ⟨fun hx => hr (List.mem_of_mem_erase hx), ?_, hp⟩
    intro hx
    rcases List.mem_append.1 hx with hx | hx
    · exact hd hx
    · simp only [List.mem_singleton] at hx
      subst hx
      exact hr h

theorem winv_release (N : Nat) (s : WorkerState) (inv : WInv N s) (id0 : String)
    (h : id0 ∈ s.done) :
    WInv N { s with done := s.done.erase id0, cnt := s.cnt - 1 } := by
  refine ⟨?_, ?_, ?_, inv.jobsNodup, inv.runStat, ?_, ?_, ?_, ?_⟩
  · show s.cnt - 1 = s.running.length + (s.done.erase id0).length
    rw [List.length_erase_of_mem h]
    have hpos : 0 < s.done.length := List.length_pos_of_mem h
    have := inv.cntEq
    omega
  · show s.cnt - 1 ≤ N
    have := inv.cntLe
    omega
  · exact inv.flightNodup.sublist ((List.erase_sublist id0 s.done).append_left s.running)
  · intro id hid
    exact inv.doneStat id (List.mem_of_mem_erase hid)
  · intro id hid
    rcases hid with hid | hid
    · exact inv.flightProc id (Or.inl hid)
    · exact inv.flightProc id (Or.inr (List.mem_of_mem_erase hid))
  · intro t ht id hid
    rcases inv.launchedState t ht id hid with hc | hc | hc
    · exact Or.inl hc
    · by_cases he : id = id0
      · subst he
        exact Or.inr (Or.inr (inv.doneStat id h))
      · exact Or.inr (Or.inl ((List.mem_erase_of_ne he).2 hc))
    · exact Or.inr (Or.inr hc)
  · intro t ht hf id hid
    obtain ⟨hr, hd, hp⟩ := inv.finishedSettled t ht hf id hid
    exact ⟨hr, fun hx => hd (List.mem_of_mem_erase hx), hp⟩

theorem winv_unreg (N : Nat) (s : WorkerState) (inv : WInv N s) (id0 : String)
    (hr : id0 ∉ s.running) (hd : id0 ∉ s.done) :
    WInv N { s with procSet := s.procSet.erase id0 } := by
  refine ⟨inv.cntEq, inv.cntLe, inv.flightNodup, inv.jobsNodup, inv.runStat,
    inv.doneStat, ?_, inv.launchedState, ?_⟩
  · intro id hid
    have hne : id ≠ id0 := by
      rintro rfl
      rcases hid with hid | hid
      · exact hr hid
      · exact hd hid
    exact (List.mem_erase_of_ne hne).2 (inv.flightProc id hid)
  · intro t ht hf id hid
    obtain ⟨h1, h2, h3⟩ := inv.finishedSettled t ht hf id hid
    exact ⟨h1, h2, fun hx => h3 (List.mem_of_mem_erase hx)⟩

theorem winv_tickfin (N : Nat) (s : WorkerState) (inv : WInv N s) (i : Nat)
    (hi : i < s.ticks.length)
    (hall : ∀ id ∈ (s.ticks.get ⟨i, hi⟩).launched, taskSettled s id) :
    WInv N { s with
      ticks := s.ticks.set i ⟨(s.ticks.get ⟨i, hi⟩).launched, true⟩ } := by
  refine ⟨inv.cntEq, inv.cntLe, inv.flightNodup, inv.jobsNodup, inv.runStat,
    inv.doneStat, inv.flightProc, ?_, ?_⟩
  · intro t ht id hid
    rcases List.mem_or_eq_of_mem_set ht with ht | ht
    · exact inv.launchedState t ht id hid
    · subst ht
      exact inv.launchedState _ (s.ticks.get_mem i hi) id hid
  · intro t ht hf id hid
    rcases List.mem_or_eq_of_mem_set ht with ht | ht
    · exact inv.finishedSettled t ht hf id hid
    · subst ht
      exact hall id hid

theorem winv_step {N : Nat} {s t : WorkerState} (inv : WInv N s)
    (hst : WStep N s t) : WInv N t := by
  cases hst with
  | create id h => exact winv_create N s inv id h
  | tick => exact winv_tick N s inv
  | finishTask id ok h => exact winv_finish N s inv id ok h
  | finishTaskNoRecord id h => exact winv_norec N s inv id h
  | release id h => exact winv_release N s inv id h
  | unregister id h hr hd => exact winv_unreg N s inv id hr hd
  | tickFinish i hi hf hall => exact winv_tickfin N s inv i hi hall

theorem winv_reach {N : Nat} {s : WorkerState} (h : WReach N s) : WInv N s := by
  induction h with
  | init => exact winv_init N
  | step hr hs ih => exact winv_step ih hs

/-- The stuck jobs of a state: in status processing with no live task —
the lasting trace of a task failure whose falsy error message made the
swallowed setJobFailed call throw instead of recording the failure. -/
def stuckCount (s : WorkerState) : Nat :=
  s.jobs.countP (fun j => j.2 == JStatus.processing && !(s.running.contains j.1))

theorem countP_proc_split (l : List (String × JStatus)) (r : List String) :
    l.countP (fun j => j.2 == JStatus.processing)
      = l.countP (fun j => j.2 == JStatus.processing && r.contains j.1)
        + l.countP (fun j => j.2 == JStatus.processing && !(r.contains j.1)) := by
  induction l with
  | nil => rfl
  | cons a t ih =>
    simp only [List.countP_cons, ih]
    cases hp : (a.2 == JStatus.processing) <;> cases hq : r.contains a.1 <;>
      simp [hp, hq] <;> omega

theorem countProcessing_bound (N : Nat) (s : WorkerState) (inv : WInv N s) :
    countProcessing s.jobs ≤ N + stuckCount s := by
  have hsplit := countP_proc_split s.jobs s.running
  have hsub : ∀ id ∈ (s.jobs.filter
      (fun j => j.2 == JStatus.processing && s.running.contains j.1)).map Prod.fst,
      id ∈ s.running := by
    intro id hid
    obtain ⟨p, hp, rfl⟩ := List.mem_map.1 hid
    have hf := List.mem_filter.1 hp
    have hand : (p.2 == JStatus.processing) = true ∧ s.running.contains p.1 = true := by
      simpa [Bool.and_eq_true] using hf.2
    simpa using hand.2
  have hnd : ((s.jobs.filter
      (fun j => j.2 == JStatus.processing && s.running.contains j.1)).map
        Prod.fst).Nodup :=
    inv.jobsNodup.sublist ((s.jobs.filter_sublist).map Prod.fst)
  have hlen := (List.Nodup.subperm hnd (fun id hid => hsub id hid)).length_le
  have hc1 : s.jobs.countP
      (fun j => j.2 == JStatus.processing && s.running.contains j.1)
      = ((s.jobs.filter
        (fun j => j.2 == JStatus.processing && s.running.contains j.1)).map
          Prod.fst).length := by
    rw [List.length_map]
    exact List.countP_eq_length_filter _ _
  have hstuck : s.jobs.countP
      (fun j => j.2 == JStatus.processing && !(s.running.contains j.1))
      = stuckCount s := rfl
  rw [hstuck] at hsplit
  have := inv.cntEq
  have := inv.cntLe
  unfold countProcessing
  omega

/-- The one-pending-job store before the first tick. -/
def c5s1 : WorkerState := ⟨[("j1", .pending)], 0, [], [], [], []⟩

/-- The state right after a tick with N = 2 admitted job j1: the task is
running and the tick record is not finished. -/
def c5s2 : WorkerState := tickAdmit 2 c5s1

/-- The two-pending-job store before any tick. -/
def c2s1 : WorkerState := ⟨[("j1", .pending), ("j2", .pending)], 0, [], [], [], []⟩

/-- After the first tick with N = 1: j1 admitted, status processing. -/
def c2s2 : WorkerState := tickAdmit 1 c2s1

/-- After j1's pipeline failure with a falsy error message: setJobFailed
threw, the catch swallowed it, the status write never happened, and the
task reached its finally block. -/
def c2s3 : WorkerState :=
  { c2s2 with running := c2s2.running.erase "j1", done := c2s2.done ++ ["j1"] }

/-- After the finally block released j1's concurrency slot. -/
def c2s4 : WorkerState :=
  { c2s3 with done := c2s3.done.erase "j1", cnt := c2s3.cnt - 1 }

/-- After the allSettled callback removed j1 from processingJobs. -/
def c2s5 : WorkerState := { c2s4 with procSet := c2s4.procSet.erase "j1" }

/-- After the next tick admits j2 into the freed slot. -/
def c2s6 : WorkerState := tickAdmit 1 c2s5

/-- C2 counterexample: with maxConcurrentJobs = 1, a reachable execution
holds two jobs in status processing at one instant.  Job j1's pipeline
failure carries a falsy error message, so setJobFailed throws
(job-manager.js lines 195-196) and the catch in processJob swallows the
throw (part_003 lines 333-338), leaving j1 in status processing forever,
while the finally block still decrements currentJobCount (line 346) and
the allSettled callback removes j1 from processingJobs (line 184); the
next tick sees a free slot and admits j2, so both j1 and j2 are in status
processing — refuting the claim that no interleaving of poll ticks and
task completions drives the count of processing jobs above N. -/
theorem worker_concurrency_cap_cex :
    WReach 1 c2s6
    ∧ countProcessing c2s6.jobs = 2
    ∧ stuckCount c2s6 = 1
    ∧ 1 < 2 := by
  refine ⟨?_, by decide, by decide, by decide⟩
  exact WReach.step
    (WReach.step
      (WReach.step
        (WReach.step
          (WReach.step
            (WReach.step
              (WReach.step WReach.init (WStep.create _ "j1" (by decide)))
              (WStep.create _ "j2" (by decide)))
            (WStep.tick _))
          (WStep.finishTaskNoRecord _ "j1" (by decide)))
        (WStep.release _ "j1" (by decide)))
      (WStep.unregister _ "j1" (by decide) (by decide) (by decide)))
    (WStep.tick _)

/-- C2 amended: under any interleaving, currentJobCount never exceeds
maxConcurrentJobs = N — each poll tick admits at most
(N - currentJobCount) pending jobs synchronously and every task
decrements the counter exactly once in its finally block — and the number
of jobs in status processing is bounded by N plus the number of stuck
jobs: jobs left in status processing with no live task, which arise only
when a task failure carries a falsy error message so that the swallowed
setJobFailed call throws instead of recording the failure.  In
particular, in every reachable state with no stuck job — every run in
which each task records its outcome — at most N jobs are in status
processing. -/
theorem worker_concurrency_cap_modulo_stuck (N : Nat) (s : WorkerState)
    (h : WReach N s) :
    s.cnt ≤ N
    ∧ countProcessing s.jobs ≤ N + stuckCount s
    ∧ (stuckCount s = 0 → countProcessing s.jobs ≤ N) := by
  have inv := winv_reach h
  have hb := countProcessing_bound N s inv
  exact ⟨inv.cntLe, hb, fun h0 => by omega⟩

/-- C2 witness: the amended bound at the concrete reachable post-tick
state with one running job, no stuck job and N = 2. -/
theorem worker_concurrency_cap_modulo_stuck_witness :
    c5s2.cnt ≤ 2
    ∧ countProcessing c5s2.jobs ≤ 2 + stuckCount c5s2
    ∧ (stuckCount c5s2 = 0 → countProcessing c5s2.jobs ≤ 2) :=
  worker_concurrency_cap_modulo_stuck 2 c5s2
    (WReach.step (WReach.step WReach.init (WStep.create _ "j1" (by decide)))
      (WStep.tick _))

/-- C5 counterexample: from the reachable state just after a tick launched
the task for job j1 (which is still running), no single step of the system
can mark that tick finished — the await Promise.allSettled at part_003
line 188 is enabled only once every launched task has settled, so the tick
does not complete without waiting for its launched tasks, refuting the
claim as stated. -/
theorem tick_awaits_launched_tasks_cex :
    WReach 2 c5s2
    ∧ c5s2.running = ["j1"]
    ∧ c5s2.ticks = [⟨["j1"], false⟩]
    ∧ ∀ t, WStep 2 c5s2 t → t.ticks.head? ≠ some ⟨["j1"], true⟩ := by
  refine ⟨WReach.step (WReach.step WReach.init (WStep.create _ "j1" (by decide)))
    (WStep.tick _), by decide, by decide, ?_⟩
  intro t hstep
  cases hstep with
  | create id h =>
    show c5s2.ticks.head? ≠ some ⟨["j1"], true⟩
    decide
  | tick =>
    show (tickAdmit 2 c5s2).ticks.head? ≠ some ⟨["j1"], true⟩
    decide
  | finishTask id ok h =>
    show c5s2.ticks.head? ≠ some ⟨["j1"], true⟩
    decide
  | finishTaskNoRecord id h =>
    show c5s2.ticks.head? ≠ some ⟨["j1"], true⟩
    decide
  | release id h =>
    show c5s2.ticks.head? ≠ some ⟨["j1"], true⟩
    decide
  | unregister id h hr hd =>
    show c5s2.ticks.head? ≠ some ⟨["j1"], true⟩
    decide
  | tickFinish i hi hf hall =>
    intro _
    have hlen : c5s2.ticks.length = 1 := by decide
    have hz : i = 0 := by omega
    subst hz
    have hget : c5s2.ticks.get ⟨0, hi⟩ = ⟨["j1"], false⟩ := rfl
    have hmem : "j1" ∈ (c5s2.ticks.get ⟨0, hi⟩).launched := by
      rw [hget]
      decide
    obtain ⟨hr, _, _⟩ := hall "j1" hmem
    exact hr (by decide)

/-- C5 amended: each poll tick launches all selected tasks before awaiting
any of them, but the tick itself — the async processQueue invocation —
completes only after every task it launched has settled, because it awaits
Promise.allSettled of the launched tasks; in every reachable state each
finished tick has all its launched tasks settled.  The timer-driven
scheduling of subsequent ticks is unaffected: start() invokes processQueue
without chaining on the previous tick, so a new poll tick step is enabled
in every state. -/
theorem tick_completes_only_after_tasks_settle (N : Nat) (s : WorkerState)
    (h : WReach N s) :
    (∀ t ∈ s.ticks, t.finished = true → ∀ id ∈ t.launched, taskSettled s id)
    ∧ WStep N s (tickAdmit N s) :=
  ⟨(winv_reach h).finishedSettled, WStep.tick s⟩

/-- C5 witness: the amended theorem at the concrete post-tick state of the
counterexample. -/
theorem tick_completes_only_after_tasks_settle_witness :
    (∀ t ∈ c5s2.ticks, t.finished = true → ∀ id ∈ t.launched, taskSettled c5s2 id)
    ∧ WStep 2 c5s2 (tickAdmit 2 c5s2) :=
  tick_completes_only_after_tasks_settle 2 c5s2
    (WReach.step (WReach.step WReach.init (WStep.create _ "j1" (by decide)))
      (WStep.tick _))

/-! ## LocalStorageProvider filename sanitization (local.js): claim C6

_getFilePath (local.js lines 52-59) computes
path.join(storagePath, path.basename(filename)).  Paths are embedded at
the granularity of slash-separated segments: basename is computed on the
raw string exactly as Node does for POSIX paths, and join plus
normalization is modelled on segment lists. -/

/-- Split a character list on slash characters (the accumulator holds the
current segment reversed). -/
def splitSlash : List Char → List Char → List String
  | [], acc => [⟨acc.reverse⟩]
  | c :: rest, acc =>
    if c = '/' then ⟨acc.reverse⟩ :: splitSlash rest []
    else splitSlash rest (c :: acc)

/-- The non-empty slash-separated segments of a path string. -/
def pathSegments (p : String) : List String :=
  (splitSlash p.data []).filter (fun seg => seg ≠ "")

/-- path.basename for POSIX paths as Node computes it: the last non-empty
segment, or the empty string when there is none. -/
def basename (p : String) : String :=
  ((pathSegments p).getLast?).getD ""

/-- The dot and dot-dot resolution that path.join performs after
concatenation: a dot segment disappears, a dot-dot segment pops the
previous segment (and is dropped at the root of an absolute path). -/
def resolveDots (segs : List String) : List String :=
  segs.foldl
    (fun acc seg =>
      if seg = "." then acc
      else if seg = ".." then acc.dropLast
      else acc ++ [seg]) []

/-- The storage path of a caller-supplied filename, as segments below the
filesystem root: path.join(storagePath, path.basename(filename)), with
the storage root given by its segment list (path.join of the root with an
empty string is the root itself). -/
def filePathSegs (rootSegs : List String) (filename : String) : List String :=
  let base := basename filename
  if base = "" then rootSegs
  else resolveDots (rootSegs ++ [base])

/-- Strict containment below the storage root: the root segments are a
proper prefix of the path segments. -/
def underRoot (rootSegs p : List String) : Bool :=
  decide (rootSegs.length < p.length) && (p.take rootSegs.length == rootSegs)

/-- C6 counterexample: path.basename keeps a dot-dot final segment, so
for the caller-supplied name a/.. the sanitized name is .. and the joined
path resolves to the parent of the storage root /data/videos — a path the
provider then reads and writes (its metadata sidecar path likewise lies
outside) — refuting the claim that every path the store touches lies
inside the configured storage root. -/
theorem sanitizer_escapes_root_cex :
    basename "a/.." = ".."
    ∧ filePathSegs ["data", "videos"] "a/.." = ["data"]
    ∧ underRoot ["data", "videos"] (filePathSegs ["data", "videos"] "a/..") = false := by
  refine ⟨?_, ?_, ?_⟩ <;> decide

theorem resolveDots_go (segs acc : List String)
    (h : ∀ seg ∈ segs, seg ≠ "." ∧ seg ≠ "..") :
    segs.foldl
      (fun acc seg =>
        if seg = "." then acc
        else if seg = ".." then acc.dropLast
        else acc ++ [seg]) acc = acc ++ segs := by
  induction segs generalizing acc with
  | nil => simp
  | cons a t ih =>
    have ha := h a (List.mem_cons_self a t)
    simp only [List.foldl_cons, ha.1, ha.2, if_false]
    rw [ih (acc ++ [a]) (fun seg hs => h seg (List.mem_cons_of_mem a hs))]
    simp

theorem resolveDots_no_dots (segs : List String)
    (h : ∀ seg ∈ segs, seg ≠ "." ∧ seg ≠ "..") :
    resolveDots segs = segs := by
  unfold resolveDots
  rw [resolveDots_go segs [] h]
  simp

/-- C6 amended: save stores the payload under path.basename(name) — in
particular the documented example ../../../etc/passwd collapses to the
bare name passwd — and whenever that basename is an ordinary segment
(not empty, not dot, not dot-dot) the derived path is the root extended by
exactly that segment, strictly inside the storage root; but basename can
itself be dot-dot (for example for the name a/..), in which case the
derived path escapes to the parent of the storage root, so sanitization
does not confine every access to the root. -/
theorem save_sanitizes_to_basename (rootSegs : List String) (filename : String)
    (hroot : ∀ seg ∈ rootSegs, seg ≠ "." ∧ seg ≠ "..")
    (hb1 : basename filename ≠ "") (hb2 : basename filename ≠ ".")
    (hb3 : basename filename ≠ "..") :
    filePathSegs rootSegs filename = rootSegs ++ [basename filename]
    ∧ underRoot rootSegs (filePathSegs rootSegs filename) = true
    ∧ basename "../../../etc/passwd" = "passwd" := by
  have hpath : filePathSegs rootSegs filename = rootSegs ++ [basename filename] := by
    unfold filePathSegs
    rw [if_neg hb1]
    apply resolveDots_no_dots
    intro seg hs
    rcases List.mem_append.1 hs with hs | hs
    · exact hroot seg hs
    · simp only [List.mem_singleton] at hs
      subst hs
      exact ⟨hb2, hb3⟩
  refine ⟨hpath, ?_, by decide⟩
  rw [hpath]
  unfold underRoot
  rw [Bool.and_eq_true]
  constructor
  · simp
  · rw [List.take_left]
    simp

/-- C6 witness: the amended theorem at the default storage root
/data/videos and the documented traversal input. -/
theorem save_sanitizes_to_basename_witness :
    filePathSegs ["data", "videos"] "../../../etc/passwd"
      = ["data", "videos", "passwd"]
    ∧ underRoot ["data", "videos"]
        (filePathSegs ["data", "videos"] "../../../etc/passwd") = true :=
  ⟨(save_sanitizes_to_basename ["data", "videos"] "../../../etc/passwd"
      (by decide) (by decide) (by decide) (by decide)).1,
   (save_sanitizes_to_basename ["data", "videos"] "../../../etc/passwd"
      (by decide) (by decide) (by decide) (by decide)).2.1⟩

/-! ## LocalStorageProvider TTL eviction (local.js): claim C7

The store is embedded as the list of payload files with their metadata
sidecars (none when the sidecar is missing, in which case getMetadata
throws and the cleanup loop skips the file).  Payload bytes play no role
in the eviction decision and are elided. -/

/-- A stored artifact: filename and parsed metadata sidecar. -/
abbrev FileStore := List (String × Option Obj)

/-- _isExpired (local.js lines 77-87): false when metadata.createdAt is
missing or falsy; otherwise the expiry instant is recomputed as createdAt
plus the provider ttlHours — the recorded expiresAt field is never
consulted.  A non-numeric createdAt would make every comparison against
the resulting invalid date false. -/
def isExpired (now ttlHours : Int) (meta : Obj) : Bool :=
  if truthy (jget meta "createdAt") then
    match jget meta "createdAt" with
    | .num c => decide (now > c + ttlHours * 3600000)
    | _ => false
  else false

/-- Whether the cleanup pass deletes this entry: metadata readable and
_isExpired true. -/
def expiredEntry (now ttlHours : Int) (f : String × Option Obj) : Bool :=
  match f.2 with
  | some m => isExpired now ttlHours m
  | none => false

/-- cleanupExpiredFiles (local.js lines 341-370): delete every enumerated
file whose readable metadata tests expired, count the deletions, keep
everything else (including files with unreadable metadata). -/
def cleanupExpiredFiles (now ttlHours : Int) (store : FileStore) :
    FileStore × Nat :=
  (store.filter (fun f => !(expiredEntry now ttlHours f)),
   store.countP (fun f => expiredEntry now ttlHours f))

/-- The metadata record written by save (local.js lines 118-127): the
defaults, merged with and overridden by the caller-supplied metadata
fields (object spread with the caller last). -/
def saveMetadata (filename : String) (size now ttlHours : Int)
    (callerMeta : Obj) : Obj :=
  oassign
    [ ("filename", .str filename), ("size", .num size),
      ("createdAt", .num now), ("updatedAt", .num now),
      ("expiresAt", .num (now + ttlHours * 3600000)),
      ("ttlHours", .num ttlHours) ]
    callerMeta

/-- Metadata produced at save time 1 with ttl 1 hour whose recorded
expiresAt was overridden by caller metadata to the far future. -/
def c7Meta : Obj := saveMetadata "f.mp4" 10 1 1 [("expiresAt", .num 999999999999)]

/-- A store holding that single artifact. -/
def c7Store : FileStore := [("f.mp4", some c7Meta)]

/-- C7 counterexample: an artifact whose recorded expiresAt lies in the
future (written by save itself, whose metadata spread lets the caller
override the default) is nevertheless deleted by the sweep at a time well
before that expiresAt, because cleanupExpiredFiles recomputes expiry from
createdAt + ttlHours and ignores the recorded expiresAt — refuting the
claim that the sweep deletes none whose expiresAt has not passed. -/
theorem evict_ignores_recorded_expiresAt_cex :
    jget c7Meta "expiresAt" = .num 999999999999
    ∧ ((10000000 : Int) < 999999999999)
    ∧ cleanupExpiredFiles 10000000 1 c7Store = ([], 1) := by
  refine ⟨rfl, by decide, rfl⟩

/-- Metadata whose recorded expiresAt is consistent with the provider
configuration: a truthy numeric createdAt and expiresAt equal to
createdAt + ttlHours, exactly what save writes when the caller metadata
does not override those fields. -/
def ConsistentMeta (ttlHours : Int) (meta : Obj) : Prop :=
  ∃ c : Int, c ≠ 0 ∧ jget meta "createdAt" = .num c
    ∧ jget meta "expiresAt" = .num (c + ttlHours * 3600000)

/-- The recorded expiresAt of this entry has passed. -/
def recordedExpired (now : Int) (f : String × Option Obj) : Bool :=
  match f.2 with
  | some m =>
    match jget m "expiresAt" with
    | .num e => decide (now > e)
    | _ => false
  | none => false

theorem expiredEntry_eq_recorded (now ttlHours : Int) (f : String × Option Obj)
    (h : ∀ m, f.2 = some m → ConsistentMeta ttlHours m) :
    expiredEntry now ttlHours f = recordedExpired now f := by
  cases hf : f.2 with
  | none => simp [expiredEntry, recordedExpired, hf]
  | some m =>
    obtain ⟨c, hc0, hcr, hex⟩ := h m hf
    simp only [expiredEntry, recordedExpired, hf]
    unfold isExpired
    rw [hcr, hex]
    simp [truthy, hc0]

/-- C7 amended: the sweep tests createdAt + ttlHours (the provider's
current configuration) rather than the recorded expiresAt; on stores whose
records are consistent — expiresAt equals createdAt + ttlHours, as save
produces when the caller metadata does not override those fields —
cleanupExpiredFiles removes exactly the artifacts whose recorded expiresAt
has passed, leaves every other entry (file and metadata) unchanged, and an
immediately repeated call removes zero. -/
theorem evict_exactly_expired_on_consistent (now ttlHours : Int)
    (store : FileStore)
    (hcons : ∀ f ∈ store, ∀ m, f.2 = some m → ConsistentMeta ttlHours m) :
    cleanupExpiredFiles now ttlHours store
      = (store.filter (fun f => !(recordedExpired now f)),
         store.countP (fun f => recordedExpired now f))
    ∧ (cleanupExpiredFiles now ttlHours
        (store.filter (fun f => !(recordedExpired now f)))).2 = 0 := by
  have hpt : ∀ f ∈ store,
      expiredEntry now ttlHours f = recordedExpired now f := by
    intro f hf
    exact expiredEntry_eq_recorded now ttlHours f (hcons f hf)
  constructor
  · unfold cleanupExpiredFiles
    rw [Prod.mk.injEq]
    exact ⟨List.filter_congr (fun f hf => by rw [hpt f hf]),
           List.countP_congr (fun f hf => by rw [hpt f hf])⟩
  · show (store.filter (fun f => !(recordedExpired now f))).countP
        (fun f => expiredEntry now ttlHours f) = 0
    rw [List.countP_eq_zero]
    intro f hf
    have hm := List.mem_filter.1 hf
    rw [hpt f hm.1]
    simpa using hm.2

/-- Two consistent artifacts, one written at time 1, one at time
10000000, both with a one-hour ttl. -/
def c7wStore : FileStore :=
  [("a.mp4", some (saveMetadata "a.mp4" 5 1 1 [])),
   ("b.mp4", some (saveMetadata "b.mp4" 5 10000000 1 []))]

/-- C7 witness: the amended theorem on the concrete two-artifact store at
time 10000000 — the stale artifact is removed, the fresh one and its
metadata survive, and the repeated call removes zero. -/
theorem evict_exactly_expired_on_consistent_witness :
    cleanupExpiredFiles 10000000 1 c7wStore
      = ([("b.mp4", some (saveMetadata "b.mp4" 5 10000000 1 []))], 1)
    ∧ (cleanupExpiredFiles 10000000 1
        (c7wStore.filter (fun f => !(recordedExpired 10000000 f)))).2 = 0 := by
  have hcons : ∀ f ∈ c7wStore, ∀ m, f.2 = some m → ConsistentMeta 1 m := by
    intro f hf m hm
    rcases List.mem_cons.1 hf with hf | hf
    · subst hf
      cases hm
      exact ⟨1, by decide, rfl, rfl⟩
    · rcases List.mem_cons.1 hf with hf | hf
      · subst hf
        cases hm
        exact ⟨10000000, by decide, rfl, rfl⟩
      · simp at hf
  obtain ⟨h1, h2⟩ := evict_exactly_expired_on_consistent 10000000 1 c7wStore hcons
  refine ⟨h1.trans ?_, h2⟩
  rfl

/-! ## CleanupScheduler (cleanup-scheduler.js): claim C8 -/

/-- The result object cleanup() returns. -/
structure CleanupResults where
  filesRemoved : Int
  jobsCleaned : Int
  errors : List String
deriving DecidableEq, Repr

/-- cleanup (cleanup-scheduler.js lines 86-143).  Each sub-call resolves
to the plain number its implementation returns; the scheduler then reads
filesResult.removedCount and jobsResult.cleanedCount — property accesses
on numbers, which yield undefined — and defaults them to 0 with the || 0
guard.  A rejected sub-call pushes an error string and leaves the count at
its initial 0, without stopping the other sub-call. -/
def schedulerCleanup (fres jres : Except String JVal) : CleanupResults :=
  let base : CleanupResults := ⟨0, 0, []⟩
  let r1 :=
    match fres with
    | .ok v => { base with filesRemoved := jsOrZero (jsMember v "removedCount") }
    | .error e =>
      { base with errors := base.errors ++ ["Failed to cleanup expired files: " ++ e] }
  match jres with
  | .ok v => { r1 with jobsCleaned := jsOrZero (jsMember v "cleanedCount") }
  | .error e =>
    { r1 with errors := r1.errors ++ ["Failed to cleanup expired jobs: " ++ e] }

/-- A store with one stale artifact (written at time 1, one-hour ttl). -/
def c8FileStore : FileStore := [("a.mp4", some (saveMetadata "a.mp4" 5 1 1 []))]

/-- A job store with one job created at time 0. -/
def c8JobStore : JobStore := createJob [] "j1" 0 []

/-- C8 (code bug): at time 10000000 with a one-hour retention both
sub-calls remove one item and return the count 1 — plain numbers — but
cleanup() reads the nonexistent properties removedCount and cleanedCount
off those numbers and reports filesRemoved = 0 and jobsCleaned = 0 with an
empty errors list, contradicting both the claim and the function's own
documentation that it returns the files and jobs removed counts. -/
theorem scheduler_misreads_subcall_counts :
    (cleanupExpiredFiles 10000000 1 c8FileStore).2 = 1
    ∧ cleanupExpiredJobs 10000000 c8JobStore 1 = .ok ([], 1)
    ∧ schedulerCleanup (.ok (.num 1)) (.ok (.num 1)) = ⟨0, 0, []⟩
    ∧ ((0 : Int) ≠ 1) := by
  refine ⟨rfl, rfl, rfl, by decide⟩

/-! ## HMAC-SHA256 signature verifier (src/unnamed/part_007): claim C9

The middleware delegates the hash to the node crypto library; SHA-256 and
HMAC are embedded here concretely (FIPS 180-4 / RFC 2104) over byte lists,
so the documented signing algorithm is an executable definition.  Bytes
are Nat below 256; words are Nat reduced modulo 2^32. -/

/-- Reduction modulo 2^32. -/
def w32 (x : Nat) : Nat := x % 4294967296

/-- 32-bit right rotation. -/
def rotr32 (n x : Nat) : Nat := w32 ((x >>> n) ||| (x <<< (32 - n)))

/-- The sigma-0 word-expansion function of SHA-256. -/
def ssig0 (x : Nat) : Nat := (rotr32 7 x) ^^^ (rotr32 18 x) ^^^ (x >>> 3)

/-- The sigma-1 word-expansion function of SHA-256. -/
def ssig1 (x : Nat) : Nat := (rotr32 17 x) ^^^ (rotr32 19 x) ^^^ (x >>> 10)

/-- The big-sigma-0 compression function of SHA-256. -/
def bsig0 (x : Nat) : Nat := (rotr32 2 x) ^^^ (rotr32 13 x) ^^^ (rotr32 22 x)

/-- The big-sigma-1 compression function of SHA-256. -/
def bsig1 (x : Nat) : Nat := (rotr32 6 x) ^^^ (rotr32 11 x) ^^^ (rotr32 25 x)

/-- The SHA-256 round constants. -/
def sha256K : List Nat :=
  [ 1116352408, 1899447441, 3049323471, 3921009573,
    961987163, 1508970993, 2453635748, 2870763221,
    3624381080, 310598401, 607225278, 1426881987,
    1925078388, 2162078206, 2614888103, 3248222580,
    3835390401, 4022224774, 264347078, 604807628,
    770255983, 1249150122, 1555081692, 1996064986,
    2554220882, 2821834349, 2952996808, 3210313671,
    3336571891, 3584528711, 113926993, 338241895,
    666307205, 773529912, 1294757372, 1396182291,
    1695183700, 1986661051, 2177026350, 2456956037,
    2730485921, 2820302411, 3259730800, 3345764771,
    3516065817, 3600352804, 4094571909, 275423344,
    430227734, 506948616, 659060556, 883997877,
    958139571, 1322822218, 1537002063, 1747873779,
    1955562222, 2024104815, 2227730452, 2361852424,
    2428436474, 2756734187, 3204031479, 3329325298 ]

/-- The eight working words of the hash state. -/
structure Hash8 where
  h0 : Nat
  h1 : Nat
  h2 : Nat
  h3 : Nat
  h4 : Nat
  h5 : Nat
  h6 : Nat
  h7 : Nat
deriving Repr, DecidableEq

/-- The SHA-256 initial hash value. -/
def sha256Init : Hash8 :=
  ⟨1779033703, 3144134277, 1013904242, 2773480762,
   1359893119, 2600822924, 528734635, 1541459225⟩

/-- Big-endian 32-bit words of a 64-byte block. -/
def blockWords : List Nat → List Nat
  | b0 :: b1 :: b2 :: b3 :: rest =>
    (((b0 * 256 + b1) * 256 + b2) * 256 + b3) :: blockWords rest
  | _ => []

/-- Extend the 16 block words to the 64-entry message schedule (the
counter argument runs the remaining 48 extension steps). -/
def extendWords : List Nat → Nat → List Nat
  | ws, 0 => ws
  | ws, n + 1 =>
    let len := ws.length
    let w := w32 (ssig1 (ws.getD (len - 2) 0) + ws.getD (len - 7) 0
      + ssig0 (ws.getD (len - 15) 0) + ws.getD (len - 16) 0)
    extendWords (ws ++ [w]) n

/-- One SHA-256 compression round on the working state, taking the round
constant and the schedule word. -/
def sha256Round (st : Hash8) (kw : Nat × Nat) : Hash8 :=
  let ch := (st.h4 &&& st.h5) ^^^ ((st.h4 ^^^ 4294967295) &&& st.h6)
  let t1 := w32 (st.h7 + bsig1 st.h4 + ch + kw.1 + kw.2)
  let maj := (st.h0 &&& st.h1) ^^^ (st.h0 &&& st.h2) ^^^ (st.h1 &&& st.h2)
  let t2 := w32 (bsig0 st.h0 + maj)
  ⟨w32 (t1 + t2), st.h0, st.h1, st.h2, w32 (st.h3 + t1), st.h4, st.h5, st.h6⟩

/-- Compress one 64-byte block into the hash state. -/
def compressBlock (st : Hash8) (block : List Nat) : Hash8 :=
  let ws := extendWords (blockWords block) 48
  let fin := (sha256K.zip ws).foldl sha256Round st
  ⟨w32 (st.h0 + fin.h0), w32 (st.h1 + fin.h1), w32 (st.h2 + fin.h2),
   w32 (st.h3 + fin.h3), w32 (st.h4 + fin.h4), w32 (st.h5 + fin.h5),
   w32 (st.h6 + fin.h6), w32 (st.h7 + fin.h7)⟩

/-- Big-endian bytes of a 64-bit length value. -/
def be64 (n : Nat) : List Nat :=
  [ n / 72057594037927936 % 256, n / 281474976710656 % 256,
    n / 1099511627776 % 256, n / 4294967296 % 256,
    n / 16777216 % 256, n / 65536 % 256, n / 256 % 256, n % 256 ]

/-- SHA-256 padding: the 0x80 byte, zeros to a 56 mod 64 boundary, and
the 64-bit big-endian bit length. -/
def padMessage (msg : List Nat) : List Nat :=
  let l := msg.length
  let zeros := (64 - ((l + 9) % 64)) % 64
  msg ++ [128] ++ List.replicate zeros 0 ++ be64 (8 * l)

/-- Fold the padded message through the compression function, 64 bytes at
a time (the fuel argument, instantiated with the padded length, bounds the
number of blocks so the recursion is structural). -/
def processChunks : Nat → Hash8 → List Nat → Hash8
  | 0, st, _ => st
  | _ + 1, st, [] => st
  | n + 1, st, bytes =>
    processChunks n (compressBlock st (bytes.take 64)) (bytes.drop 64)

/-- Big-endian bytes of one hash word. -/
def be32 (n : Nat) : List Nat :=
  [n / 16777216 % 256, n / 65536 % 256, n / 256 % 256, n % 256]

/-- Serialize the final state to the 32 digest bytes. -/
def stateBytes (st : Hash8) : List Nat :=
  be32 st.h0 ++ be32 st.h1 ++ be32 st.h2 ++ be32 st.h3
    ++ be32 st.h4 ++ be32 st.h5 ++ be32 st.h6 ++ be32 st.h7

/-- SHA-256 of a byte list. -/
def sha256 (msg : List Nat) : List Nat :=
  let padded := padMessage msg
  stateBytes (processChunks padded.length sha256Init padded)

/-- HMAC-SHA256 (RFC 2104) with a 64-byte block size. -/
def hmacSha256 (key msg : List Nat) : List Nat :=
  let k0 := if 64 < key.length then sha256 key else key
  let kpad := k0 ++ List.replicate (64 - k0.length) 0
  let ipadKey := kpad.map (fun b => b ^^^ 0x36)
  let opadKey := kpad.map (fun b => b ^^^ 0x5c)
  sha256 (opadKey ++ sha256 (ipadKey ++ msg))

/-- Lowercase hex digit characters. -/
def hexDigitChar (n : Nat) : Char :=
  if n < 10 then Char.ofNat (48 + n) else Char.ofNat (87 + n)

/-- Lowercase hex encoding of a byte list, as crypto digest hex
produces. -/
def hexOfBytes (bs : List Nat) : String :=
  ⟨bs.foldr (fun b acc => hexDigitChar (b / 16 % 16) :: hexDigitChar (b % 16) :: acc) []⟩

/-- The UTF-8 bytes of a string.  All strings the middleware compares and
signs — hex digests, decimal timestamps, JSON text and the shared secret —
are ASCII, for which the UTF-8 byte equals the code point. -/
def strBytes (s : String) : List Nat :=
  s.data.map (fun c => c.toNat)

/-- The documented signing algorithm: hex-encoded HMAC-SHA256 of the
message under the secret. -/
def hmacHex (secret msg : String) : String :=
  hexOfBytes (hmacSha256 (strBytes secret) (strBytes msg))

theorem stateBytes_length (st : Hash8) : (stateBytes st).length = 32 := rfl

theorem sha256_length (msg : List Nat) : (sha256 msg).length = 32 :=
  stateBytes_length _

theorem hexOfBytes_length (bs : List Nat) :
    (hexOfBytes bs).length = 2 * bs.length := by
  show (bs.foldr
    (fun b acc => hexDigitChar (b / 16 % 16) :: hexDigitChar (b % 16) :: acc)
    []).length = 2 * bs.length
  induction bs with
  | nil => rfl
  | cons b t ih =>
    simp only [List.foldr_cons, List.length_cons, ih]
    omega

theorem hmacHex_length (secret msg : String) :
    (hmacHex secret msg).length = 64 := by
  unfold hmacHex
  rw [hexOfBytes_length]
  have : (hmacSha256 (strBytes secret) (strBytes msg)).length = 32 :=
    sha256_length _
  omega

set_option maxRecDepth 4096 in
/-- FIPS 180-2 test vector validating the SHA-256 embedding. -/
theorem sha256_abc :
    hexOfBytes (sha256 (strBytes "abc"))
      = "ba7816bf8f01cfea414140de5dae2223b00361a396177a9cb410ff61f20015ad" := by
  decide

set_option maxRecDepth 8192 in
/-- RFC 4231 test case 2 validating the HMAC-SHA256 embedding. -/
theorem hmac_jefe :
    hmacHex "Jefe" "what do ya want for nothing?"
      = "5bdcc146bf60754e6a042426089575c75a003f089d2739839dec58b964ec3843" := by
  decide

/-- generateSignature (part_007 lines 35-54): throws when the secret is
falsy, else the hex HMAC-SHA256 of timestamp colon body.  The body
argument is the serialized JSON text over which the middleware signs (for
object bodies, JSON.stringify(body)). -/
def generateSignature (timestamp body secret : String) : Except String String :=
  if secret = "" then .error "Secret key is required for signature generation"
  else .ok (hmacHex secret (timestamp ++ ":" ++ body))

/-- timingSafeEqual (part_007 lines 63-83): false on a length mismatch,
else constant-time byte comparison — functionally, string equality. -/
def timingSafeEqual (a b : String) : Bool :=
  if a.length ≠ b.length then false else a == b

/-- String.prototype.toLowerCase by per-character lowering (sufficient
for the ASCII hex strings compared here). -/
def jsToLower (s : String) : String := ⟨s.data.map Char.toLower⟩

/-- Decimal parse of the timestamp header: Number(timestamp) restricted
to the unsigned-integer-second strings the interface specifies; a
non-numeric string parses to none, standing for NaN. -/
def parseDecimal (s : String) : Option Nat :=
  if s ≠ "" ∧ s.data.all (fun c => c.isDigit) then
    some (s.data.foldl (fun n c => n * 10 + (c.toNat - 48)) 0)
  else none

/-- validateTimestamp (part_007 lines 91-117): reject a non-numeric or
non-positive value, then require the distance between now and the
timestamp (converted to milliseconds) to be within the 5-minute
tolerance. -/
def validateTimestamp (nowMs : Int) (timestamp : String) : Bool :=
  match parseDecimal timestamp with
  | none => false
  | some n =>
    if n = 0 then false
    else decide ((nowMs - (n : Int) * 1000).natAbs ≤ 300000)

/-- The three outcomes of the middleware: a 500 response, a 401 response,
or the request proceeding to the handler. -/
inductive AuthResult where
  | serverError : AuthResult
  | unauthorized : AuthResult
  | authorized : AuthResult
deriving DecidableEq, Repr

/-- verifySignature (part_007 lines 138-266) as the decision it makes:
500 when the env secret is not configured (falsy), 401 for a missing or
empty header, an invalid or stale timestamp, or a signature mismatch
(both sides lowercased), else the request proceeds. -/
def verifySignature (secret : String) (sigHeader tsHeader : Option String)
    (bodyJson : String) (nowMs : Int) : AuthResult :=
  if secret = "" then .serverError
  else
    match sigHeader with
    | none => .unauthorized
    | some sig =>
      if sig = "" then .unauthorized
      else
        match tsHeader with
        | none => .unauthorized
        | some ts =>
          if ts = "" then .unauthorized
          else if !(validateTimestamp nowMs ts) then .unauthorized
          else
            match generateSignature ts bodyJson secret with
            | .error _ => .serverError
            | .ok expected =>
              if timingSafeEqual (jsToLower sig) (jsToLower expected) then
                .authorized
              else .unauthorized

theorem timingSafeEqual_self (a : String) : timingSafeEqual a a = true := by
  simp [timingSafeEqual]

theorem timingSafeEqual_eq (a b : String) (h : timingSafeEqual a b = true) :
    a = b := by
  unfold timingSafeEqual at h
  split at h
  · exact absurd h (by simp)
  · exact eq_of_beq h

/-- C9 counterexample: the documented algorithm HMAC-SHA256(secret,
timestamp colon body) is defined for every secret, the empty string
included, but a fresh request signed with the empty secret is not
accepted: the middleware answers with a server-configuration error before
any comparison — refuting the claim as universally quantified over
secrets. -/
theorem verify_rejects_empty_secret_cex :
    validateTimestamp 100000 "100" = true
    ∧ verifySignature "" (some (hmacHex "" ("100" ++ ":" ++ "\x7b\x7d")))
        (some "100") "\x7b\x7d" 100000 = .serverError
    ∧ AuthResult.serverError ≠ AuthResult.authorized := by
  refine ⟨by decide, rfl, by decide⟩

/-- C9 amended: for every nonempty secret, a request carrying the
signature the documented algorithm produces for (timestamp, body) with a
timestamp within 5 minutes of now passes verification; a request whose
carried signature differs (after case folding) from the recomputed
HMAC-SHA256 of (timestamp, body) — in particular any change to a body or
secret byte that changes the HMAC value — is not accepted; and a request
whose timestamp lies more than 5 minutes from now is rejected regardless
of its signature.  (With an empty secret the middleware returns a server
configuration error instead of accepting.) -/
theorem verify_accepts_exactly_valid (secret ts body sig : String)
    (nowMs : Int) (hsec : secret ≠ "") :
    (validateTimestamp nowMs ts = true →
      verifySignature secret (some (hmacHex secret (ts ++ ":" ++ body)))
        (some ts) body nowMs = .authorized)
    ∧ (validateTimestamp nowMs ts = true →
        jsToLower sig ≠ jsToLower (hmacHex secret (ts ++ ":" ++ body)) →
        verifySignature secret (some sig) (some ts) body nowMs ≠ .authorized)
    ∧ (validateTimestamp nowMs ts = false →
        verifySignature secret (some sig) (some ts) body nowMs = .unauthorized) := by
  refine ⟨?_, ?_, ?_⟩
  · intro hvalid
    have hts : ts ≠ "" := by
      intro h
      rw [h] at hvalid
      simp [validateTimestamp, parseDecimal] at hvalid
    have hlen : (hmacHex secret (ts ++ ":" ++ body)).length = 64 :=
      hmacHex_length _ _
    have hne : hmacHex secret (ts ++ ":" ++ body) ≠ "" := by
      intro h
      rw [h] at hlen
      simp [String.length] at hlen
    simp [verifySignature, generateSignature, hsec, hts, hne, hvalid,
      timingSafeEqual_self]
  · intro hvalid hneq
    have hts : ts ≠ "" := by
      intro h
      rw [h] at hvalid
      simp [validateTimestamp, parseDecimal] at hvalid
    by_cases hs0 : sig = ""
    · simp [verifySignature, hsec, hs0]
    · have hcmp : timingSafeEqual (jsToLower sig)
          (jsToLower (hmacHex secret (ts ++ ":" ++ body))) = false := by
        cases h : timingSafeEqual (jsToLower sig)
            (jsToLower (hmacHex secret (ts ++ ":" ++ body))) with
        | false => rfl
        | true => exact absurd (timingSafeEqual_eq _ _ h) hneq
      simp [verifySignature, generateSignature, hsec, hts, hs0, hvalid, hcmp]
  · intro hvalid
    by_cases hs0 : sig = ""
    · simp [verifySignature, hsec, hs0]
    · by_cases hts : ts = ""
      · simp [verifySignature, hsec, hs0, hts]
      · simp [verifySignature, hsec, hs0, hts, hvalid]

/-- C9 witness: the amended theorem at secret k, timestamp 100, body the
two-character JSON text of the empty object, current time 100000 ms (the
carried signature validates), at the wrong signature 00 (rejected), and
at a stale clock of 1000000000 ms (rejected). -/
theorem verify_accepts_exactly_valid_witness :
    verifySignature "k" (some (hmacHex "k" ("100" ++ ":" ++ "\x7b\x7d")))
      (some "100") "\x7b\x7d" 100000 = .authorized
    ∧ verifySignature "k" (some "00") (some "100") "\x7b\x7d" 100000
        ≠ .authorized
    ∧ verifySignature "k" (some "00") (some "100") "\x7b\x7d" 1000000000
        = .unauthorized := by
  obtain ⟨h1, h2, _⟩ :=
    verify_accepts_exactly_valid "k" "100" "\x7b\x7d" "00" 100000 (by decide)
  obtain ⟨_, _, h3⟩ :=
    verify_accepts_exactly_valid "k" "100" "\x7b\x7d" "00" 1000000000 (by decide)
  refine ⟨h1 (by decide), h2 (by decide) ?_, h3 (by decide)⟩
  intro he
  have hlen := congrArg String.length he
  rw [show (jsToLower "00").length = 2 from rfl] at hlen
  have h64 : (jsToLower (hmacHex "k" ("100" ++ ":" ++ "\x7b\x7d"))).length = 64 := by
    show ((hmacHex "k" ("100" ++ ":" ++ "\x7b\x7d")).data.map Char.toLower).length = 64
    rw [List.length_map]
    exact hmacHex_length _ _
  rw [h64] at hlen
  simp at hlen

end TweetsRenderer
